import Mathlib

/-!
# Streaming AES-256-CBC file driver (`aes.cpp`)

`aes.cpp` wraps the OpenSSL EVP cipher interface in two small classes,
`Encrypt` and `Decrypt`, and drives them from `test_encrypt` and
`test_decrypt`, which copy a file through the cipher in reads of 1024 bytes.

The development has three layers.

* The AES block transform is a parameter (`BlockCipher`).
* The EVP routines that `aes.cpp` calls (`EVP_EncryptUpdate`, ...) belong to the
  OpenSSL library, not to the repository.  They are modelled here after the
  library's `crypto/evp/evp_enc.c` (1.1.1 series) for AES-256-CBC with padding
  enabled, the only configuration `aes.cpp` uses.
* The classes and the two file drivers are transcribed from `aes.cpp`.

A byte is a natural number (below 256 in every real run; no operation used
here can leave that range: xor keeps it, and a padding byte is at most 16).
Buffers are lists, a `char*` together with its `int` length being one list; the
drivers pass at most 1024 bytes per call, far from the range where `int`
arithmetic in the library could overflow.

A failing EVP call makes `aes.cpp` print the library's error and `abort()`.  That
is the only way the program fails; it is rendered as the `error` result carrying
the library's error code.
-/

namespace Aes

set_option autoImplicit false
set_option linter.dupNamespace false

/-! ## Data model -/

/-- One octet. -/
abbrev Byte := Nat

/-- The constant `KEY_SIZE` of `aes.cpp`. -/
def KEY_SIZE : Nat := 256 / 8

/-- The constant `BLOCK_SIZE` of `aes.cpp`. -/
def BLOCK_SIZE : Nat := 128 / 8

/-- The raw AES-256 block transform, keyed, in both directions.  It is supplied by the
library; all that is used of it is that it maps a 16-byte block to a 16-byte block. -/
structure BlockCipher where
  /-- Encrypt one block under a key. -/
  enc : List Byte → List Byte → List Byte
  /-- Decrypt one block under a key. -/
  dec : List Byte → List Byte → List Byte
  /-- A block stays a block. -/
  enc_length : ∀ k b, b.length = 16 → (enc k b).length = 16
  /-- A block stays a block. -/
  dec_length : ∀ k b, b.length = 16 → (dec k b).length = 16

/-- A small concrete cipher, used to run the model on examples: every byte of the block
is xored with the first key byte. -/
def xorCipher : BlockCipher where
  enc := fun k b => b.map (fun x => x ^^^ k.headD 0)
  dec := fun k b => b.map (fun x => x ^^^ k.headD 0)
  enc_length := by intro k b h; simpa using h
  dec_length := by intro k b h; simpa using h

/-- Bytewise xor of two blocks. -/
def xorBlock (a b : List Byte) : List Byte := List.zipWith (fun x y => x ^^^ y) a b

/-- The failures of the EVP routines that can reach `handleErrors` in `aes.cpp`. -/
inductive EvpError
  | EVP_R_WRONG_FINAL_BLOCK_LENGTH
  | EVP_R_BAD_DECRYPT
deriving DecidableEq, Repr

/-- The fields of OpenSSL's `EVP_CIPHER_CTX` that CBC with padding uses.  `buf` holds the
`buf_len` carried bytes (bytes of the C array past `buf_len` are never read). -/
structure EVP_CIPHER_CTX where
  /-- The key the context was initialised with. -/
  key : List Byte
  /-- The chaining value: the IV at first, then the last ciphertext block processed. -/
  iv : List Byte
  /-- The carried bytes of an incomplete block. -/
  buf : List Byte
  /-- The withheld last decrypted block (decryption only). -/
  final : List Byte
  /-- Whether `final` holds a withheld block. -/
  final_used : Bool
deriving DecidableEq, Repr

/-! ## The library: CBC over whole blocks -/

/-- Modelled from the spec: the block loop of the library's CBC mode, absent from src/
(section 4.1, "Block chaining").  It is shared by `CRYPTO_cbc128_encrypt` and
`CRYPTO_cbc128_decrypt` (`while (len >= 16)`): `step ivec block` gives the output block
and the next chaining value; `n` is the number of blocks, `len / 16`.  Returns the output
and the final chaining value. -/
def cbcLoop (step : List Byte → List Byte → List Byte × List Byte) :
    Nat → List Byte → List Byte → List Byte × List Byte
  | 0, ivec, _ => ([], ivec)
  | n + 1, ivec, inp =>
    let s := step ivec (inp.take 16)
    let r := cbcLoop step n s.2 (inp.drop 16)
    (s.1 ++ r.1, r.2)

/-- One block of CBC encryption: `out = E(in xor ivec)`, and `out` is the next `ivec`. -/
def encStep (c : BlockCipher) (key : List Byte) (ivec blk : List Byte) :
    List Byte × List Byte :=
  let o := c.enc key (xorBlock blk ivec)
  (o, o)

/-- One block of CBC decryption: `out = D(in) xor ivec`, and `in` is the next `ivec`. -/
def decStep (c : BlockCipher) (key : List Byte) (ivec blk : List Byte) :
    List Byte × List Byte :=
  (xorBlock (c.dec key blk) ivec, blk)

/-- Modelled from the spec: `CRYPTO_cbc128_encrypt` is an OpenSSL routine, absent from
src/; here on `n` whole blocks.  Each plaintext block is xored with the previous
ciphertext block (the IV for the first) and then encrypted. -/
def CRYPTO_cbc128_encrypt (c : BlockCipher) (key : List Byte) :
    Nat → List Byte → List Byte → List Byte × List Byte :=
  cbcLoop (encStep c key)

/-- Modelled from the spec: `CRYPTO_cbc128_decrypt` is an OpenSSL routine, absent from
src/; here on `n` whole blocks.  Each ciphertext block is decrypted and then xored with
the previous ciphertext block (the IV for the first). -/
def CRYPTO_cbc128_decrypt (c : BlockCipher) (key : List Byte) :
    Nat → List Byte → List Byte → List Byte × List Byte :=
  cbcLoop (decStep c key)

/-! ## The library: the EVP routines

The models below describe a context from its initialisation through its `update` calls to
its one `final` call, which is how `test_encrypt` and `test_decrypt` use it.  Section 4.1 of
the spec makes every call after `finish` invalid; that rule is not rendered here, and no
statement of this development depends on what a library call made after `final` returns. -/

/-- Modelled from the spec: `EVP_EncryptInit_ex` / `EVP_DecryptInit_ex` with
`EVP_aes_256_cbc()` are OpenSSL routines, absent from src/.  They take bare pointers:
32 key bytes and 16 IV bytes are read from them, whatever the size of the caller's
buffers, and the carry is empty.  (A buffer shorter than that is read out of bounds in
C++; the model keeps the bytes there are.) -/
def EVP_CipherInit_ex (key iv : List Byte) : Except EvpError EVP_CIPHER_CTX :=
  .ok { key := key.take 32, iv := iv.take 16, buf := [], final := List.replicate 16 0,
        final_used := false }

/-- Modelled from the spec: `evp_EncryptDecryptUpdate` is an OpenSSL routine, absent from
src/.  It feeds whole blocks to `do_cipher` and carries an incomplete trailing block in
`buf` (section 4.1, "retaining any incomplete trailing block internally").  Returns the
output bytes and the new context. -/
def evp_EncryptDecryptUpdate
    (do_cipher : Nat → List Byte → List Byte → List Byte × List Byte)
    (ctx : EVP_CIPHER_CTX) (inp : List Byte) : List Byte × EVP_CIPHER_CTX :=
  let inl := inp.length
  if inl ≤ 0 then ([], ctx)
  else if ctx.buf.length = 0 ∧ inl % 16 = 0 then
    let r := do_cipher (inl / 16) ctx.iv inp
    (r.1, { ctx with iv := r.2 })
  else
    let i := ctx.buf.length
    if i ≠ 0 ∧ 16 - i > inl then
      ([], { ctx with buf := ctx.buf ++ inp })
    else
      let j := if i ≠ 0 then 16 - i else 0
      let r1 := if i ≠ 0 then do_cipher 1 ctx.iv (ctx.buf ++ inp.take j) else ([], ctx.iv)
      let inp1 := inp.drop j
      let i1 := inp1.length % 16
      let inl1 := inp1.length - i1
      let r2 := if inl1 > 0 then do_cipher (inl1 / 16) r1.2 (inp1.take inl1) else ([], r1.2)
      (r1.1 ++ r2.1, { ctx with iv := r2.2, buf := inp1.drop inl1 })

/-- Modelled from the spec: `EVP_EncryptUpdate` is an OpenSSL routine, absent from src/.
It returns `floor((carried + len) / 16) * 16` bytes (section 4.1, `update`).  With the
buffers and lengths `aes.cpp` passes it has no failing return. -/
def EVP_EncryptUpdate (c : BlockCipher) (ctx : EVP_CIPHER_CTX) (inp : List Byte) :
    Except EvpError (List Byte × EVP_CIPHER_CTX) :=
  .ok (evp_EncryptDecryptUpdate (CRYPTO_cbc128_encrypt c ctx.key) ctx inp)

/-- Modelled from the spec: `EVP_EncryptFinal_ex` is an OpenSSL routine, absent from
src/.  It fills the carried block up with `n = 16 - buf_len` bytes of value `n` and
encrypts it (section 4.1, `finish`, encryption).  Only the one `final` call of a context
is modelled; calls made after it are outside the model (see the note above). -/
def EVP_EncryptFinal_ex (c : BlockCipher) (ctx : EVP_CIPHER_CTX) :
    Except EvpError (List Byte × EVP_CIPHER_CTX) :=
  let bl := ctx.buf.length
  let n := 16 - bl
  let padded := ctx.buf ++ List.replicate (16 - bl) n
  let r := CRYPTO_cbc128_encrypt c ctx.key 1 ctx.iv padded
  .ok (r.1, { ctx with iv := r.2 })

/-- Modelled from the spec: `EVP_DecryptUpdate` is an OpenSSL routine, absent from src/.
It first releases the block withheld by the previous call, decrypts, and withholds the
last decrypted block again when the input seen so far ends on a block boundary
(section 4.1, "hold back the last complete ciphertext block"). -/
def EVP_DecryptUpdate (c : BlockCipher) (ctx : EVP_CIPHER_CTX) (inp : List Byte) :
    Except EvpError (List Byte × EVP_CIPHER_CTX) :=
  if inp.length ≤ 0 then .ok ([], ctx)
  else
    let fix := if ctx.final_used then ctx.final else []
    let r := evp_EncryptDecryptUpdate (CRYPTO_cbc128_decrypt c ctx.key) ctx inp
    if r.2.buf.length = 0 then
      .ok (fix ++ r.1.take (r.1.length - 16),
           { r.2 with final_used := true, final := r.1.drop (r.1.length - 16) })
    else
      .ok (fix ++ r.1, { r.2 with final_used := false })

/-- Modelled from the spec: `EVP_DecryptFinal_ex` is an OpenSSL routine, absent from
src/.  It fails with a wrong final block length when bytes are carried or no block is
withheld; otherwise it reads `n`, the last byte of the withheld block, fails with a bad
decrypt unless `1 ≤ n ≤ 16` and the last `n` bytes all equal `n`, and returns the first
`16 - n` bytes (section 4.1, `finish`, decryption). -/
def EVP_DecryptFinal_ex (ctx : EVP_CIPHER_CTX) :
    Except EvpError (List Byte × EVP_CIPHER_CTX) :=
  if ctx.buf.length ≠ 0 ∨ ctx.final_used = false then
    .error .EVP_R_WRONG_FINAL_BLOCK_LENGTH
  else
    let n : Nat := ctx.final.getD (16 - 1) 0
    if n = 0 ∨ n > 16 then .error .EVP_R_BAD_DECRYPT
    else if (List.range n).all (fun i => ctx.final.getD (16 - 1 - i) 0 == n) then
      .ok (ctx.final.take (16 - n), ctx)
    else .error .EVP_R_BAD_DECRYPT

/-! ## `aes.cpp`: the classes -/

/-- The function `AESBase::handleErrors`: print the library's error and `abort()`.  The aborted
process is the `error` result, carrying the library's error. -/
def handleErrors {α : Type} (e : EvpError) : Except EvpError α := .error e

/-- The constructor `Encrypt::Encrypt(key, iv)`, after `AESBase::AESBase`: the pointers
are handed to the library as they are.  (A failed allocation in `EVP_CIPHER_CTX_new` is
not modelled.) -/
def Encrypt.Encrypt (key iv : List Byte) : Except EvpError EVP_CIPHER_CTX :=
  match EVP_CipherInit_ex key iv with
  | .ok ctx => .ok ctx
  | .error e => handleErrors e

/-- The method `Encrypt::update`: the returned list is the `len` bytes written to `ciphertext`. -/
def Encrypt.update (c : BlockCipher) (ctx : EVP_CIPHER_CTX) (plaintext : List Byte) :
    Except EvpError (List Byte × EVP_CIPHER_CTX) :=
  match EVP_EncryptUpdate c ctx plaintext with
  | .ok r => .ok r
  | .error e => handleErrors e

/-- The method `Encrypt::final`: the class keeps no record of the call. -/
def Encrypt.final (c : BlockCipher) (ctx : EVP_CIPHER_CTX) :
    Except EvpError (List Byte × EVP_CIPHER_CTX) :=
  match EVP_EncryptFinal_ex c ctx with
  | .ok r => .ok r
  | .error e => handleErrors e

/-- The constructor `Decrypt::Decrypt(key, iv)`, after `AESBase::AESBase`: the pointers
are handed to the library as they are. -/
def Decrypt.Decrypt (key iv : List Byte) : Except EvpError EVP_CIPHER_CTX :=
  match EVP_CipherInit_ex key iv with
  | .ok ctx => .ok ctx
  | .error e => handleErrors e

/-- The method `Decrypt::update`: the returned list is the `len` bytes written to `plaintext`. -/
def Decrypt.update (c : BlockCipher) (ctx : EVP_CIPHER_CTX) (ciphertext : List Byte) :
    Except EvpError (List Byte × EVP_CIPHER_CTX) :=
  match EVP_DecryptUpdate c ctx ciphertext with
  | .ok r => .ok r
  | .error e => handleErrors e

/-- The method `Decrypt::final`: the class keeps no record of the call. -/
def Decrypt.final (ctx : EVP_CIPHER_CTX) : Except EvpError (List Byte × EVP_CIPHER_CTX) :=
  match EVP_DecryptFinal_ex ctx with
  | .ok r => .ok r
  | .error e => handleErrors e

/-- A sequence of `update` calls on one context, chunk after chunk; the outputs are
concatenated in call order. -/
def updates (update : EVP_CIPHER_CTX → List Byte → Except EvpError (List Byte × EVP_CIPHER_CTX)) :
    EVP_CIPHER_CTX → List (List Byte) → Except EvpError (List Byte × EVP_CIPHER_CTX)
  | ctx, [] => .ok ([], ctx)
  | ctx, chunk :: rest =>
    match update ctx chunk with
    | .error e => .error e
    | .ok r =>
      match updates update r.2 rest with
      | .error e => .error e
      | .ok r1 => .ok (r.1 ++ r1.1, r1.2)

/-! ## `aes.cpp`: the classes, with the library as a parameter -/

/-- A `std::ifstream` opened on a file: the bytes not yet read, and whether the stream
has failed (`while (fin)` tests `!failed`). -/
structure Ifstream where
  /-- The bytes not yet read. -/
  rest : List Byte
  /-- Set by a read that met the end of the file. -/
  failed : Bool
deriving DecidableEq, Repr

/-- The call `fin.read(p, n)`: the bytes stored (`gcount()` is their number) and the stream
afterwards.  A read that cannot get `n` bytes stores what is left and fails the stream. -/
def Ifstream.read (fin : Ifstream) (n : Nat) : List Byte × Ifstream :=
  if fin.failed then ([], fin)
  else if n ≤ fin.rest.length then
    (fin.rest.take n, { rest := fin.rest.drop n, failed := false })
  else (fin.rest, { rest := [], failed := true })

/-- How a run of `test_encrypt` or `test_decrypt` ends: it returns, or it aborts in
`handleErrors`.  `fout` is what was passed to `fout.write` up to then, in order. -/
inductive Outcome
  | completed (fout : List Byte)
  | aborted (err : EvpError) (fout : List Byte)
deriving DecidableEq, Repr

/-- The `while (fin) { ... }` loop of `test_encrypt` and of `test_decrypt` (the two differ
only in the class of `aes`).  `fuel` bounds the number of iterations. -/
def readLoop (update : EVP_CIPHER_CTX → List Byte → Except EvpError (List Byte × EVP_CIPHER_CTX)) :
    Nat → Ifstream → EVP_CIPHER_CTX → List Byte →
      Option (Except (EvpError × List Byte) (EVP_CIPHER_CTX × List Byte))
  | 0, _, _, _ => none
  | fuel + 1, fin, aes, fout =>
    if fin.failed then some (.ok (aes, fout))
    else
      let rd := fin.read 1024
      let len := rd.1.length
      if len ≤ 0 then some (.ok (aes, fout))
      else
        match update aes rd.1 with
        | .error e => some (.error (e, fout))
        | .ok r => readLoop update fuel rd.2 r.2 (fout ++ r.1)

/-- The driver `test_encrypt(key, in, out)`: `iv` is the 16 bytes `RAND_bytes` drew, `file` the content
of the input file.  `none` only if the loop ran out of fuel. -/
def test_encrypt (c : BlockCipher) (key iv file : List Byte) : Option Outcome :=
  let fin : Ifstream := { rest := file, failed := false }
  match Encrypt.Encrypt key iv with
  | .error e => some (.aborted e [])
  | .ok aes =>
    let fout := iv.take BLOCK_SIZE
    match readLoop (Encrypt.update c) (file.length + 1) fin aes fout with
    | none => none
    | some (.error (e, fout1)) => some (.aborted e fout1)
    | some (.ok (aes1, fout1)) =>
      match Encrypt.final c aes1 with
      | .error e => some (.aborted e fout1)
      | .ok r => some (.completed (fout1 ++ r.1))

/-- The driver `test_decrypt(key, in, out)`: `file` is the content of the input file and `stack` the
prior (indeterminate) content of the local array `iv`, of which a short first read
overwrites only the leading bytes.  `none` only if the loop ran out of fuel. -/
def test_decrypt (c : BlockCipher) (key stack file : List Byte) : Option Outcome :=
  let fin : Ifstream := { rest := file, failed := false }
  let rd := fin.read BLOCK_SIZE
  let iv := rd.1 ++ stack.drop rd.1.length
  match Decrypt.Decrypt key iv with
  | .error e => some (.aborted e [])
  | .ok aes =>
    match readLoop (Decrypt.update c) (file.length + 1) rd.2 aes [] with
    | none => none
    | some (.error (e, fout1)) => some (.aborted e fout1)
    | some (.ok (aes1, fout1)) =>
      match Decrypt.final aes1 with
      | .error e => some (.aborted e fout1)
      | .ok r => some (.completed (fout1 ++ r.1))

/-- The key that `main` of `aes.cpp` passes to both drivers. -/
def main_key : List Byte :=
  [1, 2, 3, 4, 5, 6, 7, 8, 9, 0, 1, 2, 3, 4, 5, 6, 7, 8, 9, 0, 1, 2, 3, 4, 5, 6, 7, 8, 9, 0, 1, 2]

/-- A sample of what `RAND_bytes` may draw for the IV. -/
def sample_iv : List Byte :=
  [160, 161, 162, 163, 164, 165, 166, 167, 168, 169, 170, 171, 172, 173, 174, 175]

/-! ## Reference notions from the specification -/

/-- The padding of section 4.1: `N = 16 - (len mod 16)` bytes, each of value `N`. -/
def pad (m : List Byte) : List Byte :=
  m ++ List.replicate (16 - m.length % 16) (16 - m.length % 16)

/-- One-shot CBC encryption of a whole number of blocks, as the spec words it: block `i`
is `E_key(P_i xor C_{i-1})`, with `C_0 = IV`. -/
def cbcEncryptRef (c : BlockCipher) (key : List Byte) : Nat → List Byte → List Byte → List Byte
  | 0, _, _ => []
  | n + 1, prev, p =>
    let ci := c.enc key (xorBlock (p.take 16) prev)
    ci ++ cbcEncryptRef c key n ci (p.drop 16)

/-- Block `i` (counted from 0) of a byte sequence cut into 16-byte blocks. -/
def block (i : Nat) (x : List Byte) : List Byte := (x.drop (16 * i)).take 16

/-- Valid padding of a 16-byte block, as the spec words it: the last byte has a value `N`
with `1 ≤ N ≤ 16`, and the last `N` bytes all equal `N`. -/
def validPadding (blk : List Nat) : Prop :=
  1 ≤ blk.getD 15 0 ∧ blk.getD 15 0 ≤ 16 ∧
    blk.drop (16 - blk.getD 15 0) = List.replicate (blk.getD 15 0) (blk.getD 15 0)

instance (blk : List Nat) : Decidable (validPadding blk) := by
  unfold validPadding; infer_instance

/-- The last plaintext block of a CBC ciphertext `ct` of one or more whole blocks: the
decryption of the last ciphertext block, xored with the block before it (the IV when
there is none). -/
def lastPlainBlock (c : BlockCipher) (key iv ct : List Byte) : List Byte :=
  xorBlock (c.dec key (ct.drop (ct.length - 16)))
    (if ct.length ≤ 16 then iv else (ct.drop (ct.length - 32)).take 16)

/-- A block step that maps 16-byte values to 16-byte values. -/
def StepOK (step : List Byte → List Byte → List Byte × List Byte) : Prop :=
  ∀ iv blk, iv.length = 16 → blk.length = 16 →
    (step iv blk).1.length = 16 ∧ (step iv blk).2.length = 16

/-- The state of an encryption context, created with `key` and `iv0`, after the bytes `t`
have been fed to it by `update` calls whose outputs add up to `out`: the whole blocks of
`t` have gone through CBC, the rest is carried. -/
def EncState (c : BlockCipher) (key iv0 t : List Byte) (ctx : EVP_CIPHER_CTX)
    (out : List Byte) : Prop :=
  ctx.key = key ∧ ctx.buf = t.drop (16 * (t.length / 16)) ∧
    CRYPTO_cbc128_encrypt c key (t.length / 16) iv0 t = (out, ctx.iv)

/-- The state of a decryption context, created with `key` and `iv0`, after the bytes `t`
have been fed to it by `update` calls whose outputs add up to `out`: when `t` ends on a
block boundary the last decrypted block is withheld in `final`, otherwise every whole
block has been released. -/
def DecState (c : BlockCipher) (key iv0 t : List Byte) (ctx : EVP_CIPHER_CTX)
    (out : List Byte) : Prop :=
  ctx.key = key ∧ ctx.buf = t.drop (16 * (t.length / 16)) ∧
    ctx.iv = (CRYPTO_cbc128_decrypt c key (t.length / 16) iv0 t).2 ∧
    (if 0 < t.length ∧ t.length % 16 = 0 then
      ctx.final_used = true ∧
        ctx.final = (CRYPTO_cbc128_decrypt c key (t.length / 16) iv0 t).1.drop
          (16 * (t.length / 16 - 1)) ∧
        out = (CRYPTO_cbc128_decrypt c key (t.length / 16) iv0 t).1.take
          (16 * (t.length / 16 - 1))
    else
      ctx.final_used = false ∧ out = (CRYPTO_cbc128_decrypt c key (t.length / 16) iv0 t).1)

/-! ## The block loop -/

theorem cbcLoop_add (step : List Byte → List Byte → List Byte × List Byte) (n m : Nat)
    (ivec inp : List Byte) :
    cbcLoop step (n + m) ivec inp =
      ((cbcLoop step n ivec inp).1 ++
          (cbcLoop step m (cbcLoop step n ivec inp).2 (inp.drop (16 * n))).1,
        (cbcLoop step m (cbcLoop step n ivec inp).2 (inp.drop (16 * n))).2) := by
  induction n generalizing ivec inp with
  | zero => simp [cbcLoop]
  | succ n ih =>
    have e : n + 1 + m = (n + m) + 1 := by omega
    rw [e]
    simp only [cbcLoop]
    rw [ih]
    have d : List.drop (16 * n) (List.drop 16 inp) = List.drop (16 * (n + 1)) inp := by
      rw [List.drop_drop]; congr 1; omega
    rw [d, List.append_assoc]

theorem cbcLoop_append (step : List Byte → List Byte → List Byte × List Byte) (n : Nat)
    (ivec a b : List Byte) (h : 16 * n ≤ a.length) :
    cbcLoop step n ivec (a ++ b) = cbcLoop step n ivec a := by
  induction n generalizing ivec a with
  | zero => rfl
  | succ n ih =>
    simp only [cbcLoop]
    have h16 : 16 ≤ a.length := by omega
    rw [List.take_append_of_le_length h16, List.drop_append_of_le_length h16, ih]
    simp only [List.length_drop]; omega

theorem cbcLoop_take (step : List Byte → List Byte → List Byte × List Byte) (n k : Nat)
    (ivec a : List Byte) (h : 16 * n ≤ k) (hk : k ≤ a.length) :
    cbcLoop step n ivec (a.take k) = cbcLoop step n ivec a := by
  conv_rhs => rw [← List.take_append_drop k a]
  rw [cbcLoop_append]
  simp only [List.length_take]; omega

theorem xorBlock_length (a b : List Byte) : (xorBlock a b).length = min a.length b.length := by
  simp [xorBlock]

theorem encStep_ok (c : BlockCipher) (key : List Byte) : StepOK (encStep c key) := by
  intro iv blk hiv hb
  have : (xorBlock blk iv).length = 16 := by rw [xorBlock_length, hiv, hb]; rfl
  exact ⟨c.enc_length key _ this, c.enc_length key _ this⟩

theorem decStep_ok (c : BlockCipher) (key : List Byte) : StepOK (decStep c key) := by
  intro iv blk hiv hb
  refine ⟨?_, hb⟩
  simp only [decStep]
  rw [xorBlock_length, c.dec_length key _ hb, hiv]; rfl

theorem cbcLoop_length (step : List Byte → List Byte → List Byte × List Byte)
    (hs : StepOK step) (n : Nat) (ivec inp : List Byte) (hiv : ivec.length = 16)
    (h : 16 * n ≤ inp.length) :
    (cbcLoop step n ivec inp).1.length = 16 * n ∧ (cbcLoop step n ivec inp).2.length = 16 := by
  induction n generalizing ivec inp with
  | zero => simp [cbcLoop, hiv]
  | succ n ih =>
    simp only [cbcLoop]
    have ht : (inp.take 16).length = 16 := by simp only [List.length_take]; omega
    obtain ⟨h1, h2⟩ := hs ivec (inp.take 16) hiv ht
    have hd : 16 * n ≤ (inp.drop 16).length := by simp only [List.length_drop]; omega
    obtain ⟨h3, h4⟩ := ih (step ivec (inp.take 16)).2 (inp.drop 16) h2 hd
    refine ⟨?_, h4⟩
    rw [List.length_append, h1, h3]; omega

theorem evp_update_canon (step : List Byte → List Byte → List Byte × List Byte)
    (ctx : EVP_CIPHER_CTX) (inp : List Byte) (hb : ctx.buf.length < 16) :
    evp_EncryptDecryptUpdate (cbcLoop step) ctx inp =
      ((cbcLoop step ((ctx.buf.length + inp.length) / 16) ctx.iv (ctx.buf ++ inp)).1,
        { ctx with
          iv := (cbcLoop step ((ctx.buf.length + inp.length) / 16) ctx.iv (ctx.buf ++ inp)).2,
          buf := (ctx.buf ++ inp).drop (16 * ((ctx.buf.length + inp.length) / 16)) }) := by
  unfold evp_EncryptDecryptUpdate
  simp only []
  split
  · -- empty chunk
    rename_i h0
    have hnil : inp = [] := List.eq_nil_of_length_eq_zero (by omega)
    subst hnil
    have hz : (ctx.buf.length + ([] : List Byte).length) / 16 = 0 := by
      simp only [List.length_nil]; omega
    rw [hz]; simp [cbcLoop]
  · rename_i h0
    split
    · -- whole blocks, nothing carried
      rename_i h1
      obtain ⟨hb0, hm⟩ := h1
      have hnil : ctx.buf = [] := List.eq_nil_of_length_eq_zero hb0
      have hl : 16 * (inp.length / 16) = inp.length := by omega
      simp only [hnil, List.length_nil, Nat.zero_add, List.nil_append, hl, List.drop_length]
    · rename_i h1
      split
      · -- still short of a block
        rename_i h2
        have hz : (ctx.buf.length + inp.length) / 16 = 0 := by omega
        rw [hz]; simp [cbcLoop]
      · rename_i h2
        by_cases hi : ctx.buf.length = 0
        · -- nothing carried, a trailing partial block
          have hnil : ctx.buf = [] := List.eq_nil_of_length_eq_zero hi
          have hr : ∀ m : Nat, (if m > 0 then cbcLoop step (m / 16) ctx.iv
              (List.take m inp) else ([], ctx.iv)) = cbcLoop step (m / 16) ctx.iv (List.take m inp) := by
            intro m; split
            · rfl
            · have : m / 16 = 0 := by omega
              rw [this]; rfl
          simp only [hnil, List.length_nil, ne_eq, not_true_eq_false, if_false, List.drop_zero,
            Nat.zero_add, List.nil_append, hr]
          have hq : (inp.length - inp.length % 16) / 16 = inp.length / 16 := by omega
          have hl : inp.length - inp.length % 16 = 16 * (inp.length / 16) := by omega
          rw [hq, hl, cbcLoop_take step _ _ _ _ (Nat.le_refl _) (by omega)]
        · -- complete the carried block first
          have hj : 16 - ctx.buf.length ≤ inp.length := by
            by_contra hc; exact h2 ⟨hi, by omega⟩
          have hr : ∀ (m : Nat) (v x : List Byte), (if m > 0 then cbcLoop step (m / 16) v x
              else ([], v)) = cbcLoop step (m / 16) v x := by
            intro m v x; split
            · rfl
            · have : m / 16 = 0 := by omega
              rw [this]; rfl
          simp only [ne_eq, hi, not_false_eq_true, if_true, hr]
          have hl1 : (inp.drop (16 - ctx.buf.length)).length = inp.length - (16 - ctx.buf.length) := by
            simp only [List.length_drop]
          have e1 : (ctx.buf.length + inp.length) / 16
              = 1 + (inp.length - (16 - ctx.buf.length)) / 16 := by omega
          have a1 : cbcLoop step 1 ctx.iv (ctx.buf ++ inp)
              = cbcLoop step 1 ctx.iv (ctx.buf ++ inp.take (16 - ctx.buf.length)) := by
            conv_lhs => rw [← List.take_append_drop (16 - ctx.buf.length) inp, ← List.append_assoc]
            apply cbcLoop_append
            simp only [List.length_append, List.length_take]; omega
          have a2 : (ctx.buf ++ inp).drop (16 * 1) = inp.drop (16 - ctx.buf.length) := by
            rw [List.drop_append_eq_append_drop, List.drop_eq_nil_of_le (by omega)]
            simp
          have a3 : (ctx.buf ++ inp).drop (16 * (1 + (inp.length - (16 - ctx.buf.length)) / 16))
              = (inp.drop (16 - ctx.buf.length)).drop
                  (16 * ((inp.length - (16 - ctx.buf.length)) / 16)) := by
            rw [← a2, List.drop_drop]; congr 1; omega
          rw [e1, cbcLoop_add, a1, a2, a3, hl1]
          have hq : (inp.length - (16 - ctx.buf.length)
              - (inp.length - (16 - ctx.buf.length)) % 16) / 16
              = (inp.length - (16 - ctx.buf.length)) / 16 := by omega
          have hl : inp.length - (16 - ctx.buf.length)
              - (inp.length - (16 - ctx.buf.length)) % 16
              = 16 * ((inp.length - (16 - ctx.buf.length)) / 16) := by omega
          rw [hq, hl, cbcLoop_take step _ _ _ _ (Nat.le_refl _) (by rw [hl1]; omega)]

/-! ## One update call, seen from the whole stream -/

theorem cbcLoop_feed (step : List Byte → List Byte → List Byte × List Byte)
    (iv0 t chunk : List Byte) :
    cbcLoop step ((t ++ chunk).length / 16) iv0 (t ++ chunk) =
      ((cbcLoop step (t.length / 16) iv0 t).1 ++
          (cbcLoop step ((t.length % 16 + chunk.length) / 16) (cbcLoop step (t.length / 16) iv0 t).2
            (t.drop (16 * (t.length / 16)) ++ chunk)).1,
        (cbcLoop step ((t.length % 16 + chunk.length) / 16) (cbcLoop step (t.length / 16) iv0 t).2
            (t.drop (16 * (t.length / 16)) ++ chunk)).2) ∧
    (t ++ chunk).drop (16 * ((t ++ chunk).length / 16)) =
      (t.drop (16 * (t.length / 16)) ++ chunk).drop (16 * ((t.length % 16 + chunk.length) / 16)) := by
  have e : (t ++ chunk).length / 16 = t.length / 16 + (t.length % 16 + chunk.length) / 16 := by
    simp only [List.length_append]; omega
  have hle : 16 * (t.length / 16) ≤ t.length := by omega
  have d : (t ++ chunk).drop (16 * (t.length / 16)) = t.drop (16 * (t.length / 16)) ++ chunk :=
    List.drop_append_of_le_length hle
  constructor
  · rw [e, cbcLoop_add, cbcLoop_append step _ _ _ _ hle, d]
  · rw [e, ← d, List.drop_drop]; congr 1; omega

theorem encState_buf_lt (c : BlockCipher) (key iv0 t : List Byte) (ctx : EVP_CIPHER_CTX)
    (out : List Byte) (h : EncState c key iv0 t ctx out) : ctx.buf.length = t.length % 16 := by
  rw [h.2.1, List.length_drop]; omega

theorem encState_init (c : BlockCipher) (key iv : List Byte) :
    EncState c (key.take 32) (iv.take 16) []
      { key := key.take 32, iv := iv.take 16, buf := [], final := List.replicate 16 0,
        final_used := false } [] := by
  refine ⟨rfl, rfl, rfl⟩

theorem encState_update (c : BlockCipher) (key iv0 t : List Byte) (ctx : EVP_CIPHER_CTX)
    (out chunk : List Byte) (h : EncState c key iv0 t ctx out) :
    EncState c key iv0 (t ++ chunk)
      (evp_EncryptDecryptUpdate (CRYPTO_cbc128_encrypt c ctx.key) ctx chunk).2
      (out ++ (evp_EncryptDecryptUpdate (CRYPTO_cbc128_encrypt c ctx.key) ctx chunk).1) := by
  have hlen := encState_buf_lt c key iv0 t ctx out h
  obtain ⟨hk, hbuf, hcbc⟩ := h
  have hb : ctx.buf.length < 16 := by omega
  unfold CRYPTO_cbc128_encrypt at hcbc ⊢
  rw [evp_update_canon _ ctx chunk hb]
  obtain ⟨f1, f2⟩ := cbcLoop_feed (encStep c key) iv0 t chunk
  refine ⟨hk, ?_, ?_⟩
  · simp only []
    rw [f2, hlen, hbuf]
  · simp only [CRYPTO_cbc128_encrypt]
    rw [f1, hcbc, hlen, hk, ← hbuf]


theorem decState_buf_lt (c : BlockCipher) (key iv0 t : List Byte) (ctx : EVP_CIPHER_CTX)
    (out : List Byte) (h : DecState c key iv0 t ctx out) : ctx.buf.length = t.length % 16 := by
  rw [h.2.1, List.length_drop]; omega

theorem decState_init (c : BlockCipher) (key iv : List Byte) :
    DecState c (key.take 32) (iv.take 16) []
      { key := key.take 32, iv := iv.take 16, buf := [], final := List.replicate 16 0,
        final_used := false } [] := by
  refine ⟨rfl, rfl, rfl, ?_⟩
  simp [CRYPTO_cbc128_decrypt, cbcLoop]

/-- Everything decrypted so far is either released or withheld. -/
theorem decState_released (c : BlockCipher) (key iv0 t : List Byte) (ctx : EVP_CIPHER_CTX)
    (out : List Byte) (h : DecState c key iv0 t ctx out) :
    out ++ (if ctx.final_used then ctx.final else [])
      = (CRYPTO_cbc128_decrypt c key (t.length / 16) iv0 t).1 := by
  obtain ⟨_, _, _, h4⟩ := h
  split at h4
  · obtain ⟨hu, hf, ho⟩ := h4
    rw [hu, hf, ho]; simp
  · obtain ⟨hu, ho⟩ := h4
    rw [hu, ho]; simp

theorem decState_update (c : BlockCipher) (key iv0 t : List Byte) (ctx : EVP_CIPHER_CTX)
    (out chunk : List Byte) (hiv : iv0.length = 16) (h : DecState c key iv0 t ctx out) :
    ∃ o ctx1, EVP_DecryptUpdate c ctx chunk = .ok (o, ctx1) ∧
      DecState c key iv0 (t ++ chunk) ctx1 (out ++ o) := by
  by_cases hc : chunk.length ≤ 0
  · have hnil : chunk = [] := List.eq_nil_of_length_eq_zero (by omega)
    subst hnil
    refine ⟨[], ctx, ?_, ?_⟩
    · simp [EVP_DecryptUpdate]
    · simpa using h
  · have hlen := decState_buf_lt c key iv0 t ctx out h
    have hrel := decState_released c key iv0 t ctx out h
    obtain ⟨hk, hbuf, hivc, _⟩ := h
    have hb : ctx.buf.length < 16 := by omega
    obtain ⟨f1, f2⟩ := cbcLoop_feed (decStep c key) iv0 t chunk
    obtain ⟨lp, li⟩ := cbcLoop_length (decStep c key) (decStep_ok c key) (t.length / 16) iv0 t hiv
      (by omega)
    have hbl : 16 * ((t.length % 16 + chunk.length) / 16)
        ≤ (t.drop (16 * (t.length / 16)) ++ chunk).length := by
      simp only [List.length_append, List.length_drop]; omega
    obtain ⟨lr, _⟩ := cbcLoop_length (decStep c key) (decStep_ok c key)
      ((t.length % 16 + chunk.length) / 16) _ (t.drop (16 * (t.length / 16)) ++ chunk) li hbl
    simp only [CRYPTO_cbc128_decrypt] at hrel hivc
    rw [← hbuf, ← hivc, ← hlen] at f1 lr
    rw [← hbuf, ← hlen] at f2
    simp only [EVP_DecryptUpdate, hc, if_false, CRYPTO_cbc128_decrypt]
    rw [evp_update_canon _ ctx chunk hb]
    simp only [hk]
    have hbl1 : (List.drop (16 * ((ctx.buf.length + chunk.length) / 16))
        (ctx.buf ++ chunk)).length = (t.length + chunk.length) % 16 := by
      simp only [List.length_append, List.length_drop]; omega
    rw [hbl1, lr]
    split
    · rename_i hz
      refine ⟨_, _, rfl, rfl, ?_, ?_, ?_⟩
      · simp only []; rw [f2]
      · simp only [CRYPTO_cbc128_decrypt]; rw [f1]
      · have hcond : 0 < (t ++ chunk).length ∧ (t ++ chunk).length % 16 = 0 := by
          simp only [List.length_append]; omega
        rw [if_pos hcond]
        simp only [CRYPTO_cbc128_decrypt]
        rw [f1]
        simp only []
        have e1 : 16 * ((t ++ chunk).length / 16 - 1)
            = (cbcLoop (decStep c key) (t.length / 16) iv0 t).1.length
              + (16 * ((ctx.buf.length + chunk.length) / 16) - 16) := by
          rw [lp]; simp only [List.length_append]; omega
        refine ⟨trivial, ?_, ?_⟩
        · rw [e1, List.drop_append]
        · rw [e1, List.take_append, ← List.append_assoc, ← hrel]
    · rename_i hz
      refine ⟨_, _, rfl, rfl, ?_, ?_, ?_⟩
      · simp only []; rw [f2]
      · simp only [CRYPTO_cbc128_decrypt]; rw [f1]
      · have hcond : ¬ (0 < (t ++ chunk).length ∧ (t ++ chunk).length % 16 = 0) := by
          simp only [List.length_append]; omega
        rw [if_neg hcond]
        simp only [CRYPTO_cbc128_decrypt]
        rw [f1]
        refine ⟨trivial, ?_⟩
        simp only []
        rw [← List.append_assoc, ← hrel]

/-! ## Sequences of calls and the read loop -/

theorem updates_inv
    (update : EVP_CIPHER_CTX → List Byte → Except EvpError (List Byte × EVP_CIPHER_CTX))
    (Inv : List Byte → EVP_CIPHER_CTX → List Byte → Prop)
    (hstep : ∀ t ctx out chunk, Inv t ctx out →
      ∃ o ctx1, update ctx chunk = .ok (o, ctx1) ∧ Inv (t ++ chunk) ctx1 (out ++ o))
    (chunks : List (List Byte)) (t : List Byte) (ctx : EVP_CIPHER_CTX) (out : List Byte)
    (h : Inv t ctx out) :
    ∃ o ctx1, updates update ctx chunks = .ok (o, ctx1) ∧
      Inv (t ++ chunks.flatten) ctx1 (out ++ o) := by
  induction chunks generalizing t ctx out with
  | nil => exact ⟨[], ctx, rfl, by simpa using h⟩
  | cons chunk rest ih =>
    obtain ⟨o, ctx1, hu, hi⟩ := hstep t ctx out chunk h
    obtain ⟨o2, ctx2, hu2, hi2⟩ := ih (t ++ chunk) ctx1 (out ++ o) hi
    refine ⟨o ++ o2, ctx2, ?_, ?_⟩
    · simp only [updates, hu, hu2]
    · simpa [List.append_assoc] using hi2

theorem readLoop_inv
    (update : EVP_CIPHER_CTX → List Byte → Except EvpError (List Byte × EVP_CIPHER_CTX))
    (Inv : List Byte → EVP_CIPHER_CTX → List Byte → Prop)
    (hstep : ∀ t ctx out chunk, Inv t ctx out →
      ∃ o ctx1, update ctx chunk = .ok (o, ctx1) ∧ Inv (t ++ chunk) ctx1 (out ++ o))
    (fuel : Nat) (rest t : List Byte) (ctx : EVP_CIPHER_CTX) (out pre : List Byte)
    (h : Inv t ctx out) (hf : rest.length < fuel) :
    ∃ o ctx1, readLoop update fuel { rest := rest, failed := false } ctx (pre ++ out)
        = some (.ok (ctx1, pre ++ (out ++ o))) ∧
      Inv (t ++ rest) ctx1 (out ++ o) := by
  induction fuel generalizing rest t ctx out with
  | zero => omega
  | succ fuel ih =>
    by_cases hlong : 1024 ≤ rest.length
    · obtain ⟨o, ctx1, hu, hi⟩ := hstep t ctx out (rest.take 1024) h
      have hf2 : (rest.drop 1024).length < fuel := by simp only [List.length_drop]; omega
      obtain ⟨o2, ctx2, hr, hi2⟩ := ih (rest.drop 1024) (t ++ rest.take 1024) ctx1 (out ++ o) hi hf2
      refine ⟨o ++ o2, ctx2, ?_, ?_⟩
      · have hl : ¬ (List.take 1024 rest).length ≤ 0 := by
          simp only [List.length_take]; omega
        simp only [readLoop, Ifstream.read, hlong, if_true, Bool.false_eq_true, if_false, hl, hu]
        rw [List.append_assoc, hr, List.append_assoc]
      · simpa [List.append_assoc] using hi2
    · by_cases hempty : rest.length ≤ 0
      · have hnil : rest = [] := List.eq_nil_of_length_eq_zero (by omega)
        subst hnil
        refine ⟨[], ctx, ?_, by simpa using h⟩
        simp [readLoop, Ifstream.read]
      · obtain ⟨o, ctx1, hu, hi⟩ := hstep t ctx out rest h
        refine ⟨o, ctx1, ?_, hi⟩
        obtain ⟨fuel1, rfl⟩ : ∃ k, fuel = k + 1 := ⟨fuel - 1, by omega⟩
        simp only [readLoop, Ifstream.read, hlong, if_true, Bool.false_eq_true, if_false, hempty, hu]
        rw [List.append_assoc]


/-! ## Encryption: the driver -/

theorem encrypt_update_step (c : BlockCipher) (key iv0 : List Byte) :
    ∀ (t : List Byte) (ctx : EVP_CIPHER_CTX) (out chunk : List Byte), EncState c key iv0 t ctx out →
      ∃ o ctx1, Encrypt.update c ctx chunk = .ok (o, ctx1) ∧
        EncState c key iv0 (t ++ chunk) ctx1 (out ++ o) := by
  intro t ctx out chunk h
  exact ⟨_, _, rfl, encState_update c key iv0 t ctx out chunk h⟩

theorem decrypt_update_step (c : BlockCipher) (key iv0 : List Byte) (hiv : iv0.length = 16) :
    ∀ (t : List Byte) (ctx : EVP_CIPHER_CTX) (out chunk : List Byte), DecState c key iv0 t ctx out →
      ∃ o ctx1, Decrypt.update c ctx chunk = .ok (o, ctx1) ∧
        DecState c key iv0 (t ++ chunk) ctx1 (out ++ o) := by
  intro t ctx out chunk h
  obtain ⟨o, ctx1, hu, hs⟩ := decState_update c key iv0 t ctx out chunk hiv h
  exact ⟨o, ctx1, by simp only [Decrypt.update, hu], hs⟩

theorem pad_length (m : List Byte) : (pad m).length = 16 * (m.length / 16 + 1) := by
  simp only [pad, List.length_append, List.length_replicate]; omega

/-- What `final` gives after the bytes `t`: together with what `update` gave, the output is the CBC
encryption of the padded `t`. -/
theorem encState_final (c : BlockCipher) (key iv0 t : List Byte) (ctx : EVP_CIPHER_CTX)
    (out : List Byte) (h : EncState c key iv0 t ctx out) :
    ∃ o ctx1, Encrypt.final c ctx = .ok (o, ctx1) ∧
      out ++ o = (CRYPTO_cbc128_encrypt c key (t.length / 16 + 1) iv0 (pad t)).1 ∧
      ctx1.buf = ctx.buf ∧ ctx1.key = ctx.key ∧
      ctx1.iv = (CRYPTO_cbc128_encrypt c key (t.length / 16 + 1) iv0 (pad t)).2 := by
  have hlen := encState_buf_lt c key iv0 t ctx out h
  obtain ⟨hk, hbuf, hcbc⟩ := h
  refine ⟨_, _, rfl, ?_, rfl, rfl, ?_⟩
  all_goals
    simp only [CRYPTO_cbc128_encrypt] at hcbc ⊢
    have hle : 16 * (t.length / 16) ≤ t.length := by omega
    rw [cbcLoop_add, pad, cbcLoop_append _ _ _ _ _ hle, hcbc,
      List.drop_append_of_le_length hle, hk, hlen, ← hbuf]

theorem cbcLoop_encStep_eq_ref (c : BlockCipher) (key : List Byte) (n : Nat)
    (ivec p : List Byte) :
    (cbcLoop (encStep c key) n ivec p).1 = cbcEncryptRef c key n ivec p := by
  induction n generalizing ivec p with
  | zero => rfl
  | succ n ih => simp only [cbcLoop, cbcEncryptRef, encStep, ih]

theorem test_encrypt_eq (c : BlockCipher) (key iv m : List Byte) (hiv : iv.length = 16) :
    test_encrypt c key iv m = some (.completed
      (iv ++ (CRYPTO_cbc128_encrypt c (key.take 32) (m.length / 16 + 1) iv (pad m)).1)) := by
  have ht : iv.take 16 = iv := List.take_of_length_le (by omega)
  have h0 := encState_init c key iv
  obtain ⟨o, ctx1, hr, hs⟩ := readLoop_inv (Encrypt.update c) (EncState c (key.take 32) (iv.take 16))
    (encrypt_update_step c _ _) (m.length + 1) m [] _ [] iv h0 (by omega)
  obtain ⟨o2, ctx2, hf, ho, _⟩ := encState_final c _ _ _ ctx1 _ hs
  simp only [List.nil_append, List.append_nil] at hr ho
  simp only [test_encrypt, Encrypt.Encrypt, EVP_CipherInit_ex, BLOCK_SIZE, ht] at hr ⊢
  rw [hr]
  simp only [hf, List.append_assoc, ho]
  rw [ht]


/-! ## Decryption: the withheld block and `final` -/

/-- The chaining value of CBC decryption is the last ciphertext block read. -/
theorem cbcLoop_decStep_iv (c : BlockCipher) (key : List Byte) (n : Nat) (ivec ct : List Byte) :
    (cbcLoop (decStep c key) n ivec ct).2
      = if n = 0 then ivec else (ct.drop (16 * (n - 1))).take 16 := by
  induction n generalizing ivec ct with
  | zero => rfl
  | succ n ih =>
    simp only [cbcLoop, decStep, ih]
    by_cases hn : n = 0
    · subst hn; simp
    · have e : 16 * (n + 1 - 1) = 16 + 16 * (n - 1) := by omega
      simp only [hn, if_false, Nat.add_one_ne_zero, List.drop_drop, e]

/-- The last block that CBC decryption of `n ≥ 1` whole blocks produces. -/
theorem cbcLoop_decStep_last (c : BlockCipher) (key iv0 t : List Byte) (hiv : iv0.length = 16)
    (hpos : 0 < t.length) (hmul : t.length % 16 = 0) :
    (cbcLoop (decStep c key) (t.length / 16) iv0 t).1.drop (16 * (t.length / 16 - 1))
      = lastPlainBlock c key iv0 t := by
  have hn : t.length / 16 = (t.length / 16 - 1) + 1 := by omega
  have hle : 16 * (t.length / 16 - 1) ≤ t.length := by omega
  obtain ⟨lp, _⟩ := cbcLoop_length (decStep c key) (decStep_ok c key) (t.length / 16 - 1) iv0 t hiv hle
  rw [hn, cbcLoop_add]
  simp only []
  rw [Nat.add_sub_cancel, ← lp, List.drop_left, cbcLoop_decStep_iv]
  simp only [cbcLoop, decStep, List.append_nil, lastPlainBlock]
  have e1 : 16 * (t.length / 16 - 1) = t.length - 16 := by omega
  have ht : (List.drop (t.length - 16) t).take 16 = List.drop (t.length - 16) t := by
    apply List.take_of_length_le; simp only [List.length_drop]; omega
  rw [lp, e1, ht]
  congr 1
  by_cases h1 : t.length / 16 - 1 = 0
  · have : t.length ≤ 16 := by omega
    simp [h1, this]
  · have : ¬ t.length ≤ 16 := by omega
    have e2 : 16 * (t.length / 16 - 1 - 1) = t.length - 32 := by omega
    simp only [h1, this, if_false, e2]

theorem decState_final_eq (c : BlockCipher) (key iv0 t : List Byte) (ctx : EVP_CIPHER_CTX)
    (out : List Byte) (hiv : iv0.length = 16) (h : DecState c key iv0 t ctx out)
    (hpos : 0 < t.length) (hmul : t.length % 16 = 0) :
    ctx.buf = [] ∧ ctx.final_used = true ∧ ctx.final = lastPlainBlock c key iv0 t ∧
      ctx.final.length = 16 ∧ out.length = t.length - 16 ∧
      out ++ ctx.final = (CRYPTO_cbc128_decrypt c key (t.length / 16) iv0 t).1 := by
  have hlen := decState_buf_lt c key iv0 t ctx out h
  have hrel := decState_released c key iv0 t ctx out h
  obtain ⟨_, _, _, h4⟩ := h
  rw [if_pos ⟨hpos, hmul⟩] at h4
  obtain ⟨hu, hf, ho⟩ := h4
  simp only [CRYPTO_cbc128_decrypt] at hf ho hrel
  obtain ⟨lp, _⟩ := cbcLoop_length (decStep c key) (decStep_ok c key) (t.length / 16) iv0 t hiv
    (by omega)
  refine ⟨List.eq_nil_of_length_eq_zero (by omega), hu, ?_, ?_, ?_, ?_⟩
  · rw [hf, cbcLoop_decStep_last c key iv0 t hiv hpos hmul]
  · rw [hf, List.length_drop, lp]; omega
  · rw [ho, List.length_take, lp]; omega
  · simp only [CRYPTO_cbc128_decrypt]; rw [← hrel, hu]; simp

theorem decState_out_length (c : BlockCipher) (key iv0 t : List Byte) (ctx : EVP_CIPHER_CTX)
    (out : List Byte) (hiv : iv0.length = 16) (h : DecState c key iv0 t ctx out) :
    out.length = 16 * ((t.length - 1) / 16) ∧
      (ctx.final_used = true ↔ 0 < t.length ∧ t.length % 16 = 0) := by
  obtain ⟨lp, _⟩ := cbcLoop_length (decStep c key) (decStep_ok c key) (t.length / 16) iv0 t hiv
    (by omega)
  obtain ⟨_, _, _, h4⟩ := h
  simp only [CRYPTO_cbc128_decrypt] at h4
  split at h4
  · rename_i hc
    obtain ⟨hu, hf, ho⟩ := h4
    refine ⟨?_, by simp [hu, hc]⟩
    rw [ho, List.length_take, lp]; omega
  · rename_i hc
    obtain ⟨hu, ho⟩ := h4
    refine ⟨?_, by simp [hu, hc]⟩
    rw [ho, lp]; omega

/-- The loop of `EVP_DecryptFinal_ex` over the last `n` bytes says the same as
`validPadding`. -/
theorem padding_check_iff (blk : List ℕ) (hl : blk.length = 16) :
    (¬ (blk.getD (16 - 1) 0 = 0 ∨ blk.getD (16 - 1) 0 > 16) ∧
      (List.range (blk.getD (16 - 1) 0)).all (fun i => blk.getD (16 - 1 - i) 0 == blk.getD (16 - 1) 0)
        = true) ↔ validPadding blk := by
  simp only [validPadding, Nat.reduceSub]
  generalize blk.getD 15 0 = n
  constructor
  · rintro ⟨h1, h2⟩
    have hn1 : 1 ≤ n := by omega
    have hn2 : n ≤ 16 := by omega
    refine ⟨hn1, hn2, ?_⟩
    simp only [List.all_eq_true, List.mem_range, beq_iff_eq] at h2
    apply List.ext_getElem
    · simp only [List.length_drop, List.length_replicate]; omega
    · intro j hj1 hj2
      simp only [List.length_replicate] at hj2
      simp only [List.getElem_drop, List.getElem_replicate]
      have := h2 (n - 1 - j) (by omega)
      have e : 15 - (n - 1 - j) = 16 - n + j := by omega
      rw [e, List.getD_eq_getElem blk 0 (show 16 - n + j < blk.length by omega)] at this
      exact this
  · rintro ⟨hn1, hn2, h3⟩
    refine ⟨by omega, ?_⟩
    simp only [List.all_eq_true, List.mem_range, beq_iff_eq]
    intro i hi
    have hd : (blk.drop (16 - n)).getD (n - 1 - i) 0 = n := by
      rw [h3, List.getD_eq_getElem (List.replicate n n) 0
        (show n - 1 - i < (List.replicate n n).length by
          simp only [List.length_replicate]; omega)]
      simp
    rw [List.getD_eq_getElem?_getD, List.getElem?_drop] at hd
    have e : 16 - n + (n - 1 - i) = 15 - i := by omega
    rw [e] at hd
    rw [List.getD_eq_getElem?_getD]; exact hd

theorem decrypt_final_spec (ctx : EVP_CIPHER_CTX) (hb : ctx.buf = []) (hu : ctx.final_used = true)
    (hl : ctx.final.length = 16) :
    (validPadding ctx.final →
        Decrypt.final ctx = .ok (ctx.final.take (16 - ctx.final.getD 15 0), ctx)) ∧
      (¬ validPadding ctx.final → Decrypt.final ctx = .error .EVP_R_BAD_DECRYPT) := by
  have hiff := padding_check_iff ctx.final hl
  simp only [Nat.reduceSub] at hiff
  constructor
  · intro hv
    obtain ⟨h1, h2⟩ := hiff.mpr hv
    simp only [Decrypt.final, EVP_DecryptFinal_ex, hb, hu, Nat.reduceSub, h1, h2]
    simp
  · intro hv
    have h0 : ¬ (ctx.buf.length ≠ 0 ∨ ctx.final_used = false) := by simp [hb, hu]
    simp only [Decrypt.final, EVP_DecryptFinal_ex, h0, if_false, Nat.reduceSub]
    by_cases h1 : ctx.final.getD 15 0 = 0 ∨ ctx.final.getD 15 0 > 16
    · simp only [h1, if_true, handleErrors]
    · have h2 : ¬ ((List.range (ctx.final.getD 15 0)).all
          (fun i => ctx.final.getD (15 - i) 0 == ctx.final.getD 15 0) = true) :=
        fun h2 => hv (hiff.mp ⟨h1, h2⟩)
      simp only [h1, h2, if_false, handleErrors, Bool.false_eq_true]

theorem decrypt_final_wrong_length (ctx : EVP_CIPHER_CTX)
    (h : ctx.buf ≠ [] ∨ ctx.final_used = false) :
    Decrypt.final ctx = .error .EVP_R_WRONG_FINAL_BLOCK_LENGTH := by
  have : ctx.buf.length ≠ 0 ∨ ctx.final_used = false := by
    rcases h with h | h
    · left; intro h0; exact h (List.eq_nil_of_length_eq_zero h0)
    · right; exact h
  simp only [Decrypt.final, EVP_DecryptFinal_ex, this, if_true, handleErrors]


/-! ## Decryption: the driver, and decrypting what was encrypted -/

theorem xorBlock_cancel (a b : List Byte) (h : a.length ≤ b.length) :
    xorBlock (xorBlock a b) b = a := by
  induction a generalizing b with
  | nil => simp [xorBlock]
  | cons x xs ih =>
    cases b with
    | nil => simp at h
    | cons y ys =>
      simp only [xorBlock, List.zipWith_cons_cons, List.cons.injEq]
      refine ⟨?_, ih ys (by simpa using h)⟩
      rw [Nat.xor_assoc, Nat.xor_self, Nat.xor_zero]

theorem cbc_dec_enc (c : BlockCipher) (key : List Byte)
    (hinv : ∀ b, b.length = 16 → c.dec key (c.enc key b) = b) (n : Nat) (ivec p : List Byte)
    (hiv : ivec.length = 16) (hp : 16 * n ≤ p.length) :
    (cbcLoop (decStep c key) n ivec (cbcLoop (encStep c key) n ivec p).1).1 = p.take (16 * n) := by
  induction n generalizing ivec p with
  | zero => simp [cbcLoop]
  | succ n ih =>
    have ht : (p.take 16).length = 16 := by simp only [List.length_take]; omega
    have hx : (xorBlock (p.take 16) ivec).length = 16 := by rw [xorBlock_length, ht, hiv]; rfl
    have ho : (c.enc key (xorBlock (p.take 16) ivec)).length = 16 := c.enc_length key _ hx
    have hd : 16 * n ≤ (p.drop 16).length := by simp only [List.length_drop]; omega
    simp only [cbcLoop, encStep, decStep]
    rw [List.take_append_of_le_length (by omega), List.take_of_length_le (by omega),
      List.drop_append_of_le_length (by omega), List.drop_of_length_le (by omega),
      List.nil_append, hinv _ hx, xorBlock_cancel _ _ (by omega)]
    have := ih (c.enc key (xorBlock (p.take 16) ivec)) (p.drop 16) ho hd
    simp only [encStep, decStep] at this
    rw [this]
    have e : 16 * (n + 1) = 16 + 16 * n := by omega
    rw [e, List.take_add]

theorem test_decrypt_eq (c : BlockCipher) (key stack iv ct : List Byte) (hiv : iv.length = 16) :
    ∃ out ctx1, DecState c (key.take 32) iv ct ctx1 out ∧
      test_decrypt c key stack (iv ++ ct) =
        match Decrypt.final ctx1 with
        | .error e => some (.aborted e out)
        | .ok r => some (.completed (out ++ r.1)) := by
  have hrd : ({ rest := iv ++ ct, failed := false } : Ifstream).read BLOCK_SIZE
      = (iv, { rest := ct, failed := false }) := by
    have h1 : BLOCK_SIZE ≤ (iv ++ ct).length := by
      simp only [BLOCK_SIZE, List.length_append]; omega
    simp only [Ifstream.read, Bool.false_eq_true, if_false, h1, if_true]
    simp only [BLOCK_SIZE, Nat.reduceDiv, ← hiv, List.take_left, List.drop_left]
  have ht : (iv ++ stack.drop iv.length).take 16 = iv := by
    rw [← hiv, List.take_left]
  have h0 := decState_init c key (iv ++ stack.drop iv.length)
  rw [ht] at h0
  obtain ⟨o, ctx1, hr, hs⟩ := readLoop_inv (Decrypt.update c) (DecState c (key.take 32) iv)
    (decrypt_update_step c _ _ hiv) ((iv ++ ct).length + 1) ct [] _ [] [] h0
    (by simp only [List.length_append]; omega)
  simp only [List.nil_append] at hr hs
  refine ⟨o, ctx1, hs, ?_⟩
  simp only [test_decrypt, hrd, Decrypt.Decrypt, EVP_CipherInit_ex, ht]
  rw [hr]


/-! ## Padding -/

theorem xorCipher_inverse (k b : List Byte) : xorCipher.dec k (xorCipher.enc k b) = b := by
  simp only [xorCipher, List.map_map]
  conv_rhs => rw [← List.map_id b]
  apply List.map_congr_left
  intro x _
  simp only [Function.comp_apply, id_eq]
  rw [Nat.xor_assoc, Nat.xor_self, Nat.xor_zero]

/-- A carried rest filled up with padding is a validly padded block, and stripping the
padding gives the rest back. -/
theorem padded_block_valid (r : List ℕ) (hr : r.length < 16) :
    validPadding (r ++ List.replicate (16 - r.length) (16 - r.length)) ∧
      (r ++ List.replicate (16 - r.length) (16 - r.length)).getD 15 0 = 16 - r.length ∧
      (r ++ List.replicate (16 - r.length) (16 - r.length)).take (16 - (16 - r.length)) = r := by
  have hlast : (r ++ List.replicate (16 - r.length) (16 - r.length)).getD 15 0 = 16 - r.length := by
    rw [List.getD_eq_getElem _ 0 (show 15 < (r ++ List.replicate (16 - r.length)
      (16 - r.length)).length by simp only [List.length_append, List.length_replicate]; omega)]
    rw [List.getElem_append_right (by omega)]
    simp
  have e : 16 - (16 - r.length) = r.length := by omega
  refine ⟨?_, hlast, ?_⟩
  · unfold validPadding
    rw [hlast]
    refine ⟨by omega, by omega, ?_⟩
    rw [e, List.drop_left]
  · rw [e, List.take_left]

theorem pad_split (m out fin : List Byte) (h : out ++ fin = pad m)
    (hl : out.length = 16 * (m.length / 16)) :
    out = m.take (16 * (m.length / 16)) ∧
      fin = m.drop (16 * (m.length / 16)) ++
        List.replicate (16 - (m.drop (16 * (m.length / 16))).length)
          (16 - (m.drop (16 * (m.length / 16))).length) := by
  have hd : (m.drop (16 * (m.length / 16))).length = m.length % 16 := by
    simp only [List.length_drop]; omega
  have h2 : pad m = m.take (16 * (m.length / 16)) ++ (m.drop (16 * (m.length / 16)) ++
      List.replicate (16 - m.length % 16) (16 - m.length % 16)) := by
    rw [← List.append_assoc, List.take_append_drop, pad]
  rw [h2] at h
  have hl2 : out.length = (m.take (16 * (m.length / 16))).length := by
    rw [hl, List.length_take]; omega
  obtain ⟨h3, h4⟩ := List.append_inj h hl2
  exact ⟨h3, by rw [h4, hd]⟩


/-! ## Sequences of calls from a fresh context -/

theorem encrypt_updates_state (c : BlockCipher) (key iv : List Byte)
    (chunks : List (List Byte)) :
    ∃ out e1, updates (Encrypt.update c)
        { key := key.take 32, iv := iv.take 16, buf := [], final := List.replicate 16 0,
          final_used := false } chunks = .ok (out, e1) ∧
      EncState c (key.take 32) (iv.take 16) chunks.flatten e1 out := by
  have := updates_inv (Encrypt.update c) (EncState c (key.take 32) (iv.take 16))
    (encrypt_update_step c _ _) chunks [] _ [] (encState_init c key iv)
  simpa using this

theorem decrypt_updates_state (c : BlockCipher) (key iv : List Byte)
    (chunks : List (List Byte)) (hiv : iv.length = 16) :
    ∃ out d1, updates (Decrypt.update c)
        { key := key.take 32, iv := iv.take 16, buf := [], final := List.replicate 16 0,
          final_used := false } chunks = .ok (out, d1) ∧
      DecState c (key.take 32) (iv.take 16) chunks.flatten d1 out := by
  have hl : (iv.take 16).length = 16 := by simp only [List.length_take]; omega
  have := updates_inv (Decrypt.update c) (DecState c (key.take 32) (iv.take 16))
    (decrypt_update_step c _ _ hl) chunks [] _ [] (decState_init c key iv)
  simpa using this

theorem encState_unique (c : BlockCipher) (key iv0 t : List Byte) (ctx1 ctx2 : EVP_CIPHER_CTX)
    (out1 out2 : List Byte) (h1 : EncState c key iv0 t ctx1 out1)
    (h2 : EncState c key iv0 t ctx2 out2) :
    out1 = out2 ∧
      Except.map Prod.fst (Encrypt.final c ctx1) = Except.map Prod.fst (Encrypt.final c ctx2) := by
  obtain ⟨o1, c1, hf1, ho1, _⟩ := encState_final c key iv0 t ctx1 out1 h1
  obtain ⟨o2, c2, hf2, ho2, _⟩ := encState_final c key iv0 t ctx2 out2 h2
  have e : out1 = out2 := by
    have a := h1.2.2; rw [h2.2.2] at a
    exact (Prod.mk.inj a).1.symm
  subst e
  refine ⟨rfl, ?_⟩
  rw [hf1, hf2]
  have : o1 = o2 := List.append_cancel_left (ho1.trans ho2.symm)
  subst this; rfl

theorem decState_unique (c : BlockCipher) (key iv0 t : List Byte) (ctx1 ctx2 : EVP_CIPHER_CTX)
    (out1 out2 : List Byte) (hiv : iv0.length = 16) (h1 : DecState c key iv0 t ctx1 out1)
    (h2 : DecState c key iv0 t ctx2 out2) :
    out1 = out2 ∧
      Except.map Prod.fst (Decrypt.final ctx1) = Except.map Prod.fst (Decrypt.final ctx2) := by
  by_cases hc : 0 < t.length ∧ t.length % 16 = 0
  · obtain ⟨hb1, hu1, hf1, hl1, _, hc1⟩ := decState_final_eq c key iv0 t ctx1 out1 hiv h1 hc.1 hc.2
    obtain ⟨hb2, hu2, hf2, hl2, _, hc2⟩ := decState_final_eq c key iv0 t ctx2 out2 hiv h2 hc.1 hc.2
    have hfe : ctx1.final = ctx2.final := hf1.trans hf2.symm
    refine ⟨?_, ?_⟩
    · rw [← hc2, hfe] at hc1
      exact List.append_cancel_right hc1
    · obtain ⟨a1, b1⟩ := decrypt_final_spec ctx1 hb1 hu1 hl1
      obtain ⟨a2, b2⟩ := decrypt_final_spec ctx2 hb2 hu2 hl2
      by_cases hv : validPadding ctx1.final
      · rw [a1 hv, a2 (hfe ▸ hv), hfe]; rfl
      · rw [b1 hv, b2 (hfe ▸ hv)]
  · obtain ⟨_, _, _, k1⟩ := h1
    obtain ⟨_, _, _, k2⟩ := h2
    rw [if_neg hc] at k1 k2
    refine ⟨k1.2.trans k2.2.symm, ?_⟩
    rw [decrypt_final_wrong_length ctx1 (Or.inr k1.1),
      decrypt_final_wrong_length ctx2 (Or.inr k2.1)]


theorem test_encrypt_single_update (c : BlockCipher) (key iv m : List Byte)
    (hiv : iv.length = 16) :
    ∃ e0 out e2 fin e3, Encrypt.Encrypt key iv = .ok e0 ∧
      Encrypt.update c e0 m = .ok (out, e2) ∧ Encrypt.final c e2 = .ok (fin, e3) ∧
      test_encrypt c key iv m = some (.completed (iv ++ (out ++ fin))) := by
  have hit : iv.take 16 = iv := List.take_of_length_le (by omega)
  obtain ⟨out, e2, hu, hs⟩ := encrypt_update_step c (key.take 32) (iv.take 16) [] _ [] m
    (encState_init c key iv)
  simp only [List.nil_append] at hs
  obtain ⟨fin, e3, hf, ho, _⟩ := encState_final c _ _ _ e2 out hs
  rw [hit] at ho
  exact ⟨_, out, e2, fin, e3, rfl, hu, hf, by rw [ho]; exact test_encrypt_eq c key iv m hiv⟩

theorem test_decrypt_single_update (c : BlockCipher) (key stack iv ct : List Byte)
    (hiv : iv.length = 16) :
    ∃ d0 out d2, Decrypt.Decrypt key iv = .ok d0 ∧
      Decrypt.update c d0 ct = .ok (out, d2) ∧
      test_decrypt c key stack (iv ++ ct) =
        match Decrypt.final d2 with
        | .error e => some (.aborted e out)
        | .ok r => some (.completed (out ++ r.1)) := by
  have hit : iv.take 16 = iv := List.take_of_length_le (by omega)
  have hl : (iv.take 16).length = 16 := by rw [hit]; exact hiv
  obtain ⟨out, d2, hu, hs⟩ := decrypt_update_step c (key.take 32) (iv.take 16) hl [] _ [] ct
    (decState_init c key iv)
  simp only [List.nil_append] at hs
  obtain ⟨out1, d1, hs1, ht⟩ := test_decrypt_eq c key stack iv ct hiv
  rw [hit] at hs
  obtain ⟨ho, hfin⟩ := decState_unique c _ _ _ d1 d2 out1 out hiv hs1 hs
  subst ho
  refine ⟨_, out1, d2, rfl, hu, ?_⟩
  rw [ht]
  cases h1 : Decrypt.final d1 <;> cases h2 : Decrypt.final d2 <;>
    simp only [h1, h2, Except.map, Except.ok.injEq, Except.error.injEq, reduceCtorEq] at hfin ⊢
  · rw [hfin]
  · rw [hfin]


theorem cbcEncryptRef_length (c : BlockCipher) (key : List Byte) (n : Nat) (prev p : List Byte)
    (hiv : prev.length = 16) (hp : 16 * n ≤ p.length) :
    (cbcEncryptRef c key n prev p).length = 16 * n := by
  rw [← cbcLoop_encStep_eq_ref]
  exact (cbcLoop_length (encStep c key) (encStep_ok c key) n prev p hiv hp).1

/-- Every block of the reference ciphertext is the encryption of the plaintext block xored
with the ciphertext block before it, or with the IV for the first. -/
theorem cbcEncryptRef_block (c : BlockCipher) (key : List Byte) (n : Nat) (prev p : List Byte)
    (hiv : prev.length = 16) (hp : 16 * n ≤ p.length) (i : Nat) (hi : i < n) :
    block i (cbcEncryptRef c key n prev p)
      = c.enc key (xorBlock (block i p)
          (if i = 0 then prev else block (i - 1) (cbcEncryptRef c key n prev p))) := by
  induction n generalizing prev p i with
  | zero => omega
  | succ n ih =>
    have ht : (p.take 16).length = 16 := by simp only [List.length_take]; omega
    have hx : (xorBlock (p.take 16) prev).length = 16 := by rw [xorBlock_length, ht, hiv]; rfl
    have ho : (c.enc key (xorBlock (p.take 16) prev)).length = 16 := c.enc_length key _ hx
    have hd : 16 * n ≤ (p.drop 16).length := by simp only [List.length_drop]; omega
    simp only [cbcEncryptRef]
    cases i with
    | zero =>
      simp only [block, Nat.mul_zero, List.drop_zero, if_true]
      rw [List.take_append_of_le_length (le_of_eq ho.symm), List.take_of_length_le (le_of_eq ho)]
    | succ j =>
      have hj : j < n := by omega
      have e1 : ∀ x : List Byte, block (j + 1) (c.enc key (xorBlock (p.take 16) prev) ++ x)
          = block j x := by
        intro x
        simp only [block]
        have : 16 * (j + 1) = (c.enc key (xorBlock (p.take 16) prev)).length + 16 * j := by
          rw [ho]; omega
        rw [this, List.drop_append]
      have e2 : block (j + 1) p = block j (p.drop 16) := by
        simp only [block, List.drop_drop]
        congr 2; omega
      rw [e1, e2, ih _ _ ho hd j hj]
      congr 2
      simp only [Nat.add_one_ne_zero, if_false, Nat.add_sub_cancel]
      cases j with
      | zero =>
        simp only [block, Nat.mul_zero, List.drop_zero, if_true]
        rw [List.take_append_of_le_length (le_of_eq ho.symm), List.take_of_length_le (le_of_eq ho)]
      | succ k =>
        simp only [Nat.add_one_ne_zero, if_false, Nat.add_sub_cancel]
        simp only [block]
        have : 16 * (k + 1) = (c.enc key (xorBlock (p.take 16) prev)).length + 16 * k := by
          rw [ho]; omega
        rw [this, List.drop_append]


/-! ## The classes over any library -/

/-- C1 (round trip).  For a 32-byte key, a 16-byte IV and any file content `m`,
`test_encrypt` completes and writes a file `f`, and `test_decrypt` with the same key on `f`
completes and writes exactly `m`; all that is assumed of the block cipher is that its
decryption undoes its encryption under that key. -/
theorem roundtrip_test_decrypt_test_encrypt (c : BlockCipher) (key stack iv m : List Byte)
    (hk : key.length = KEY_SIZE) (hiv : iv.length = BLOCK_SIZE)
    (hinv : ∀ b, b.length = 16 → c.dec key (c.enc key b) = b) :
    ∃ f, test_encrypt c key iv m = some (.completed f) ∧
      test_decrypt c key stack f = some (.completed m) := by
  have hiv16 : iv.length = 16 := hiv
  have hkt : key.take 32 = key := List.take_of_length_le (by rw [hk]; decide)
  refine ⟨_, test_encrypt_eq c key iv m hiv16, ?_⟩
  rw [hkt]
  obtain ⟨lc, _⟩ := cbcLoop_length (encStep c key) (encStep_ok c key) (m.length / 16 + 1) iv
    (pad m) hiv16 (by rw [pad_length])
  obtain ⟨out, ctx1, hs, ht⟩ := test_decrypt_eq c key stack iv
    (CRYPTO_cbc128_encrypt c key (m.length / 16 + 1) iv (pad m)).1 hiv16
  rw [ht]
  rw [hkt] at hs
  simp only [CRYPTO_cbc128_encrypt] at hs lc ⊢
  obtain ⟨hb, hu, _, hfl, hol, hcat⟩ := decState_final_eq c key iv _ ctx1 out hiv16 hs
    (by rw [lc]; omega) (by rw [lc]; omega)
  have hn : (cbcLoop (encStep c key) (m.length / 16 + 1) iv (pad m)).1.length / 16
      = m.length / 16 + 1 := by rw [lc]; omega
  simp only [CRYPTO_cbc128_decrypt] at hcat
  rw [hn, cbc_dec_enc c key hinv _ _ _ hiv16 (by rw [pad_length]),
    List.take_of_length_le (by rw [pad_length])] at hcat
  obtain ⟨ho, hf⟩ := pad_split m out ctx1.final hcat (by rw [hol, lc]; omega)
  have hr : (m.drop (16 * (m.length / 16))).length < 16 := by
    simp only [List.length_drop]; omega
  obtain ⟨hv, hlast, htake⟩ := padded_block_valid _ hr
  rw [← hf] at hv hlast htake
  rw [(decrypt_final_spec ctx1 hb hu hfl).1 hv]
  simp only []
  rw [hlast, htake, ho, List.take_append_drop]

/-- The round trip at the key of `main`, a sample IV and a 3-byte file, with the sample
cipher. -/
theorem roundtrip_witness :
    main_key.length = KEY_SIZE ∧ sample_iv.length = BLOCK_SIZE ∧
      ∃ f, test_encrypt xorCipher main_key sample_iv [7, 8, 9] = some (.completed f) ∧
        test_decrypt xorCipher main_key [] f = some (.completed [7, 8, 9]) :=
  ⟨by decide, by decide,
    roundtrip_test_decrypt_test_encrypt xorCipher main_key [] sample_iv [7, 8, 9] (by decide)
      (by decide) (fun b _ => xorCipher_inverse main_key b)⟩

/-- C2 (wire format).  The file `test_encrypt` writes is the IV followed by `C`, the
one-shot CBC encryption of the padded plaintext: `C` is as long as the padded plaintext,
and its block `i` is `E_key(P_i xor C_{i-1})`, with the IV in place of `C_{-1}` for the
first block.  The IV written is the one the `Encrypt` context was created with, and the
padding is `N = 16 - (len mod 16)` bytes of value `N`. -/
theorem test_encrypt_wire_format (c : BlockCipher) (key iv m : List Byte)
    (hk : key.length = KEY_SIZE) (hiv : iv.length = BLOCK_SIZE) :
    (∃ ct, test_encrypt c key iv m = some (.completed (iv ++ ct)) ∧
      ct = cbcEncryptRef c key ((pad m).length / 16) iv (pad m) ∧
      ct.length = (pad m).length ∧
      ∀ i, i < (pad m).length / 16 →
        block i ct = c.enc key (xorBlock (block i (pad m))
          (if i = 0 then iv else block (i - 1) ct))) ∧
      (∃ ctx, Encrypt.Encrypt key iv = .ok ctx ∧ ctx.iv = iv ∧ ctx.key = key) ∧
      pad m = m ++ List.replicate (16 - m.length % 16) (16 - m.length % 16) := by
  have hiv16 : iv.length = 16 := hiv
  have hkt : key.take 32 = key := List.take_of_length_le (by rw [hk]; decide)
  have hit : iv.take 16 = iv := List.take_of_length_le (by omega)
  have hn : (pad m).length / 16 = m.length / 16 + 1 := by rw [pad_length]; omega
  have hp : 16 * ((pad m).length / 16) ≤ (pad m).length := by omega
  refine ⟨⟨_, ?_, rfl, ?_, ?_⟩, ⟨_, rfl, hit, hkt⟩, rfl⟩
  · rw [test_encrypt_eq c key iv m hiv16, hkt, hn, CRYPTO_cbc128_encrypt,
      cbcLoop_encStep_eq_ref]
  · rw [cbcEncryptRef_length c key _ iv (pad m) hiv16 hp, pad_length]; omega
  · intro i hi
    exact cbcEncryptRef_block c key _ iv (pad m) hiv16 hp i hi

/-- The wire format at the key of `main`, a sample IV and a 3-byte file. -/
theorem test_encrypt_wire_format_witness :
    main_key.length = KEY_SIZE ∧ sample_iv.length = BLOCK_SIZE ∧
      ∃ ct, test_encrypt xorCipher main_key sample_iv [7, 8, 9]
          = some (.completed (sample_iv ++ ct)) ∧
        ct = cbcEncryptRef xorCipher main_key ((pad [7, 8, 9]).length / 16) sample_iv
          (pad [7, 8, 9]) ∧
        ct.length = (pad [7, 8, 9]).length := by
  obtain ⟨⟨ct, h1, h2, h3, _⟩, _⟩ := test_encrypt_wire_format xorCipher main_key sample_iv
    [7, 8, 9] (by decide) (by decide)
  exact ⟨by decide, by decide, ct, h1, h2, h3⟩

/-- C3 (padding is always added).  After the 16-byte IV, `test_encrypt` writes exactly
`(L / 16 + 1) * 16` bytes for a plaintext of `L` bytes: between 1 and 16 more than `L`,
16 more when `L` is a multiple of 16, and one block for the empty plaintext. -/
theorem test_encrypt_payload_length (c : BlockCipher) (key iv m : List Byte)
    (hiv : iv.length = BLOCK_SIZE) :
    ∃ ct, test_encrypt c key iv m = some (.completed (iv ++ ct)) ∧
      ct.length = (m.length / 16 + 1) * 16 ∧
      m.length + 1 ≤ ct.length ∧ ct.length ≤ m.length + 16 ∧
      (m.length % 16 = 0 → ct.length = m.length + BLOCK_SIZE) ∧
      (m = [] → ct.length = 16) := by
  have hiv16 : iv.length = 16 := hiv
  obtain ⟨lc, _⟩ := cbcLoop_length (encStep c (key.take 32)) (encStep_ok c _) (m.length / 16 + 1) iv
    (pad m) hiv16 (by rw [pad_length])
  refine ⟨_, test_encrypt_eq c key iv m hiv16, ?_⟩
  simp only [CRYPTO_cbc128_encrypt, BLOCK_SIZE]
  rw [lc]
  refine ⟨by omega, by omega, by omega, fun h => by omega, fun h => ?_⟩
  subst h; rfl

/-- The payload length for a 16-byte plaintext: 32 bytes. -/
theorem test_encrypt_payload_length_witness :
    sample_iv.length = BLOCK_SIZE ∧
      ∃ ct, test_encrypt xorCipher main_key sample_iv (List.replicate 16 0)
          = some (.completed (sample_iv ++ ct)) ∧ ct.length = 32 := by
  refine ⟨by decide, ?_⟩
  obtain ⟨ct, h1, h2, _⟩ :=
    test_encrypt_payload_length xorCipher main_key sample_iv (List.replicate 16 0) (by decide)
  exact ⟨ct, h1, by simpa using h2⟩


/-- C4 (chunking invariance).  In each direction, feeding the chunks one `update` at a
time gives, concatenated in call order, the bytes a single `update` on the whole input
gives, and `final` then gives the same result (the same bytes, or the same failure) in
both cases.  In particular what `test_encrypt` and `test_decrypt` produce with their reads
of 1024 bytes and a short last read is what one `update` on the whole content, followed
by `final`, produces. -/
theorem chunking_invariance (c : BlockCipher) (key iv stack : List Byte)
    (chunks : List (List Byte)) (m : List Byte) (hiv : iv.length = BLOCK_SIZE) :
    (∃ e0 out e1 e2, Encrypt.Encrypt key iv = .ok e0 ∧
      updates (Encrypt.update c) e0 chunks = .ok (out, e1) ∧
      Encrypt.update c e0 chunks.flatten = .ok (out, e2) ∧
      Except.map Prod.fst (Encrypt.final c e1) = Except.map Prod.fst (Encrypt.final c e2) ∧
      ∃ r, Encrypt.final c e1 = .ok r) ∧
    (∃ d0 out d1 d2, Decrypt.Decrypt key iv = .ok d0 ∧
      updates (Decrypt.update c) d0 chunks = .ok (out, d1) ∧
      Decrypt.update c d0 chunks.flatten = .ok (out, d2) ∧
      Except.map Prod.fst (Decrypt.final d1) = Except.map Prod.fst (Decrypt.final d2)) ∧
    (∃ e0 out e2 fin e3, Encrypt.Encrypt key iv = .ok e0 ∧
      Encrypt.update c e0 m = .ok (out, e2) ∧ Encrypt.final c e2 = .ok (fin, e3) ∧
      test_encrypt c key iv m = some (.completed (iv ++ (out ++ fin)))) ∧
    (∃ d0 out d2, Decrypt.Decrypt key iv = .ok d0 ∧
      Decrypt.update c d0 m = .ok (out, d2) ∧
      test_decrypt c key stack (iv ++ m) =
        match Decrypt.final d2 with
        | .error e => some (.aborted e out)
        | .ok r => some (.completed (out ++ r.1))) := by
  have hiv16 : iv.length = 16 := hiv
  have hl : (iv.take 16).length = 16 := by simp only [List.length_take]; omega
  refine ⟨?_, ?_, test_encrypt_single_update c key iv m hiv16,
    test_decrypt_single_update c key stack iv m hiv16⟩
  · obtain ⟨out, e1, hu, hs⟩ := encrypt_updates_state c key iv chunks
    obtain ⟨o2, e2, hu2, hs2⟩ := encrypt_update_step c (key.take 32) (iv.take 16) [] _ []
      chunks.flatten (encState_init c key iv)
    simp only [List.nil_append] at hs2
    obtain ⟨ho, hfin⟩ := encState_unique c _ _ _ e1 e2 out o2 hs hs2
    subst ho
    exact ⟨_, out, e1, e2, rfl, hu, hu2, hfin, _, rfl⟩
  · obtain ⟨out, d1, hu, hs⟩ := decrypt_updates_state c key iv chunks hiv16
    obtain ⟨o2, d2, hu2, hs2⟩ := decrypt_update_step c (key.take 32) (iv.take 16) hl [] _ []
      chunks.flatten (decState_init c key iv)
    simp only [List.nil_append] at hs2
    obtain ⟨ho, hfin⟩ := decState_unique c _ _ _ d1 d2 out o2 hl hs hs2
    subst ho
    exact ⟨_, out, d1, d2, rfl, hu, hu2, hfin⟩

/-- Chunking invariance on a split into three chunks, one of them empty. -/
theorem chunking_invariance_witness :
    sample_iv.length = BLOCK_SIZE ∧
      ∃ d0 out d1 d2, Decrypt.Decrypt main_key sample_iv = .ok d0 ∧
        updates (Decrypt.update xorCipher) d0 [List.replicate 5 1, [], List.replicate 27 2]
          = .ok (out, d1) ∧
        Decrypt.update xorCipher d0
          [List.replicate 5 1, [], List.replicate 27 2].flatten = .ok (out, d2) ∧
        Except.map Prod.fst (Decrypt.final d1) = Except.map Prod.fst (Decrypt.final d2) :=
  ⟨by decide, (chunking_invariance xorCipher main_key sample_iv []
    [List.replicate 5 1, [], List.replicate 27 2] [] (by decide)).2.1⟩

/-- C5 (padding validation at finish).  After a ciphertext of one or more whole blocks has
been fed to a `Decrypt` context, in any chunks, `final` succeeds exactly when the last
decrypted block is validly padded; it then returns the first `16 - N` bytes of that block,
`N` being its last byte, and otherwise fails with a bad decrypt, returning no bytes. -/
theorem decrypt_final_padding_validation (c : BlockCipher) (key iv : List Byte)
    (chunks : List (List Byte)) (hk : key.length = KEY_SIZE) (hiv : iv.length = BLOCK_SIZE)
    (hpos : 0 < chunks.flatten.length) (hmul : chunks.flatten.length % 16 = 0) :
    ∃ d0 out d1, Decrypt.Decrypt key iv = .ok d0 ∧
      updates (Decrypt.update c) d0 chunks = .ok (out, d1) ∧
      ((∃ r, Decrypt.final d1 = .ok r) ↔ validPadding (lastPlainBlock c key iv chunks.flatten)) ∧
      (validPadding (lastPlainBlock c key iv chunks.flatten) →
        Decrypt.final d1 = .ok
          ((lastPlainBlock c key iv chunks.flatten).take
            (16 - (lastPlainBlock c key iv chunks.flatten).getD 15 0), d1)) ∧
      (¬ validPadding (lastPlainBlock c key iv chunks.flatten) →
        Decrypt.final d1 = .error .EVP_R_BAD_DECRYPT) := by
  have hiv16 : iv.length = 16 := hiv
  have hkt : key.take 32 = key := List.take_of_length_le (by rw [hk]; decide)
  have hit : iv.take 16 = iv := List.take_of_length_le (by omega)
  obtain ⟨out, d1, hu, hs⟩ := decrypt_updates_state c key iv chunks hiv16
  rw [hkt, hit] at hs
  obtain ⟨hb, hused, hf, hl, _, _⟩ := decState_final_eq c key iv _ d1 out hiv16 hs hpos hmul
  obtain ⟨a, b⟩ := decrypt_final_spec d1 hb hused hl
  rw [hf] at a b
  refine ⟨_, out, d1, rfl, hu, ?_, a, b⟩
  constructor
  · rintro ⟨r, hr⟩
    by_contra hv
    rw [b hv] at hr
    cases hr
  · intro hv
    exact ⟨_, a hv⟩


/-- Padding validation on the ciphertext of the 3-byte file `[7, 8, 9]`, fed in two
chunks: `final` returns the three bytes. -/
theorem decrypt_final_padding_validation_witness :
    main_key.length = KEY_SIZE ∧ sample_iv.length = BLOCK_SIZE ∧
      ∃ d0 out d1, Decrypt.Decrypt main_key sample_iv = .ok d0 ∧
        updates (Decrypt.update xorCipher) d0
          [[166, 168, 170, 175, 168], [169, 170, 171, 164, 165, 166, 167, 160, 161, 162, 163]]
            = .ok (out, d1) ∧
        Decrypt.final d1 = .ok ([7, 8, 9], d1) := by
  refine ⟨by decide, by decide, ?_⟩
  obtain ⟨d0, out, d1, h0, h1, _, h3, _⟩ := decrypt_final_padding_validation xorCipher main_key
    sample_iv [[166, 168, 170, 175, 168], [169, 170, 171, 164, 165, 166, 167, 160, 161, 162, 163]]
    (by decide) (by decide) (by decide) (by decide)
  exact ⟨d0, out, d1, h0, h1, h3 (by decide)⟩

/-- C9 (per-call output count).  After any earlier chunks, `Encrypt::update` on a chunk of
`n` bytes returns `(carried + n) / 16 * 16` bytes and keeps `(carried + n) mod 16`, where
`carried` is the number of bytes fed before, mod 16.  `Decrypt::update` calls that were fed
`T` bytes in all have returned `16 * ((T - 1) / 16)` bytes (none for `T = 0`): the last
block is withheld exactly when `T` is a positive multiple of 16.  `final` then releases
that block: when it is validly padded `final` succeeds and returns it without its
padding, and otherwise `final` fails with a bad decrypt; when no block is withheld `final`
fails with a wrong final block length. -/
theorem update_output_count (c : BlockCipher) (key iv : List Byte) (chunks : List (List Byte))
    (chunk : List Byte) (hiv : iv.length = BLOCK_SIZE) :
    (∃ e0 out e1 o e2, Encrypt.Encrypt key iv = .ok e0 ∧
      updates (Encrypt.update c) e0 chunks = .ok (out, e1) ∧
      Encrypt.update c e1 chunk = .ok (o, e2) ∧
      e1.buf.length = chunks.flatten.length % 16 ∧
      o.length = (chunks.flatten.length % 16 + chunk.length) / 16 * 16 ∧
      e2.buf.length = (chunks.flatten.length % 16 + chunk.length) % 16 ∧
      e2.buf = (chunks.flatten ++ chunk).drop
        ((chunks.flatten ++ chunk).length - (chunks.flatten.length % 16 + chunk.length) % 16)) ∧
    (∃ d0 out d1, Decrypt.Decrypt key iv = .ok d0 ∧
      updates (Decrypt.update c) d0 chunks = .ok (out, d1) ∧
      out.length = 16 * ((chunks.flatten.length - 1) / 16) ∧
      d1.buf.length = chunks.flatten.length % 16 ∧
      (d1.final_used = true ↔ 0 < chunks.flatten.length ∧ chunks.flatten.length % 16 = 0) ∧
      (0 < chunks.flatten.length → chunks.flatten.length % 16 = 0 →
        out.length = chunks.flatten.length - 16 ∧
        d1.final = lastPlainBlock c (key.take 32) iv chunks.flatten ∧
        (validPadding d1.final →
          Decrypt.final d1 = .ok (d1.final.take (16 - d1.final.getD 15 0), d1)) ∧
        (¬ validPadding d1.final → Decrypt.final d1 = .error .EVP_R_BAD_DECRYPT) ∧
        ∀ r, Decrypt.final d1 = .ok r → r.1 = d1.final.take (16 - d1.final.getD 15 0)) ∧
      (¬ (0 < chunks.flatten.length ∧ chunks.flatten.length % 16 = 0) →
        Decrypt.final d1 = .error .EVP_R_WRONG_FINAL_BLOCK_LENGTH)) := by
  have hiv16 : iv.length = 16 := hiv
  have hit : iv.take 16 = iv := List.take_of_length_le (by omega)
  constructor
  · obtain ⟨out, e1, hu, hs⟩ := encrypt_updates_state c key iv chunks
    obtain ⟨o, e2, hu2, hs2⟩ := encrypt_update_step c _ _ _ e1 out chunk hs
    rw [hit] at hs hs2
    have hb1 := encState_buf_lt c _ _ _ e1 out hs
    have hb2 := encState_buf_lt c _ _ _ e2 _ hs2
    obtain ⟨l1, _⟩ := cbcLoop_length (encStep c (key.take 32)) (encStep_ok c _)
      (chunks.flatten.length / 16) iv chunks.flatten hiv16 (by omega)
    obtain ⟨l2, _⟩ := cbcLoop_length (encStep c (key.take 32)) (encStep_ok c _)
      ((chunks.flatten ++ chunk).length / 16) iv (chunks.flatten ++ chunk) hiv16 (by omega)
    have k1 := hs.2.2
    have k2 := hs2.2.2
    simp only [CRYPTO_cbc128_encrypt] at k1 k2
    rw [k1] at l1
    rw [k2] at l2
    dsimp only at l1 l2
    simp only [List.length_append] at l2 hb2
    refine ⟨_, out, e1, o, e2, rfl, hu, hu2, hb1, by omega, by omega, ?_⟩
    rw [hs2.2.1]
    congr 1
    simp only [List.length_append]; omega
  · obtain ⟨out, d1, hu, hs⟩ := decrypt_updates_state c key iv chunks hiv16
    rw [hit] at hs
    have hb := decState_buf_lt c _ _ _ d1 out hs
    obtain ⟨hol, hfu⟩ := decState_out_length c _ _ _ d1 out hiv16 hs
    refine ⟨_, out, d1, rfl, hu, hol, hb, hfu, ?_, ?_⟩
    · intro hpos hmul
      obtain ⟨hb0, hused, hf, hl, hol2, _⟩ :=
        decState_final_eq c _ iv _ d1 out hiv16 hs hpos hmul
      obtain ⟨a, b⟩ := decrypt_final_spec d1 hb0 hused hl
      refine ⟨hol2, hf, a, b, ?_⟩
      intro r hr
      by_cases hv : validPadding d1.final
      · rw [a hv] at hr
        cases hr; rfl
      · rw [b hv] at hr
        cases hr
    · intro hno
      have hnu : d1.final_used = false := by
        cases hfu1 : d1.final_used
        · rfl
        · exact absurd (hfu.mp hfu1) hno
      exact decrypt_final_wrong_length d1 (Or.inr hnu)

/-- The counts after 40 bytes were fed to `Encrypt` in two chunks and 30 more arrive; and
for `Decrypt`, after the 32-byte ciphertext of the 20-byte file `0, 1, ..., 19` was fed in
two chunks: 16 bytes were returned, and `final` releases the last four. -/
theorem update_output_count_witness :
    sample_iv.length = BLOCK_SIZE ∧
      (∃ e0 out e1 o e2, Encrypt.Encrypt main_key sample_iv = .ok e0 ∧
        updates (Encrypt.update xorCipher) e0 [List.replicate 33 1, List.replicate 7 2]
          = .ok (out, e1) ∧
        Encrypt.update xorCipher e1 (List.replicate 30 3) = .ok (o, e2) ∧
        o.length = 32 ∧ e2.buf.length = 6) ∧
      (∃ d0 out d1, Decrypt.Decrypt main_key sample_iv = .ok d0 ∧
        updates (Decrypt.update xorCipher) d0
          [[161, 161, 161, 161, 161, 161, 161, 161, 161, 161],
           [161, 161, 161, 161, 161, 161, 176, 177, 178, 179, 172, 172, 172, 172, 172, 172, 172,
            172, 172, 172, 172, 172]] = .ok (out, d1) ∧
        out.length = 16 ∧ d1.final_used = true ∧
        Decrypt.final d1 = .ok ([16, 17, 18, 19], d1)) := by
  refine ⟨by decide, ?_, ?_⟩
  · obtain ⟨⟨e0, out, e1, o, e2, h0, h1, h2, _, h4, h5, _⟩, _⟩ := update_output_count xorCipher
      main_key sample_iv [List.replicate 33 1, List.replicate 7 2] (List.replicate 30 3)
      (by decide)
    exact ⟨e0, out, e1, o, e2, h0, h1, h2, by simpa using h4, by simpa using h5⟩
  · obtain ⟨_, ⟨d0, out, d1, h0, h1, h2, _, h4, h5, _⟩⟩ := update_output_count xorCipher
      main_key sample_iv
      [[161, 161, 161, 161, 161, 161, 161, 161, 161, 161],
       [161, 161, 161, 161, 161, 161, 176, 177, 178, 179, 172, 172, 172, 172, 172, 172, 172,
        172, 172, 172, 172, 172]] [] (by decide)
    obtain ⟨_, hf, hv, _⟩ := h5 (by decide) (by decide)
    have hfe : d1.final = [16, 17, 18, 19, 12, 12, 12, 12, 12, 12, 12, 12, 12, 12, 12, 12] := by
      rw [hf]; decide
    have hfin := hv (by rw [hfe]; decide)
    rw [hfe] at hfin
    exact ⟨d0, out, d1, h0, h1, h2, h4.mpr (by decide), hfin⟩

/-- C10 (output buffer bound).  For a chunk of 1 to 1024 bytes read into `buf`, and a
context in any state that earlier `update` calls can have left, `update` writes at most
`n + 16` bytes, which is at most `1040 = sizeof(buf) + BLOCK_SIZE`, the size of `temp`; and
`final` writes at most 16 bytes. -/
theorem output_buffer_bound (c : BlockCipher) (key iv : List Byte) (chunks : List (List Byte))
    (chunk : List Byte) (hiv : iv.length = BLOCK_SIZE) (h1 : 1 ≤ chunk.length)
    (h2 : chunk.length ≤ 1024) :
    (∃ e0 out e1 o e2, Encrypt.Encrypt key iv = .ok e0 ∧
      updates (Encrypt.update c) e0 chunks = .ok (out, e1) ∧
      Encrypt.update c e1 chunk = .ok (o, e2) ∧ o.length ≤ chunk.length + 16 ∧
      ∃ f e3, Encrypt.final c e1 = .ok (f, e3) ∧ f.length ≤ 16) ∧
    (∃ d0 out d1 o d2, Decrypt.Decrypt key iv = .ok d0 ∧
      updates (Decrypt.update c) d0 chunks = .ok (out, d1) ∧
      Decrypt.update c d1 chunk = .ok (o, d2) ∧ o.length ≤ chunk.length + 16 ∧
      ∀ f d3, Decrypt.final d1 = .ok (f, d3) → f.length ≤ 16) ∧
    chunk.length + 16 ≤ 1024 + BLOCK_SIZE ∧ 1024 + BLOCK_SIZE = 1040 := by
  have hiv16 : iv.length = 16 := hiv
  have hit : iv.take 16 = iv := List.take_of_length_le (by omega)
  refine ⟨?_, ?_, by simp only [BLOCK_SIZE]; omega, by decide⟩
  · obtain ⟨out, e1, hu, hs⟩ := encrypt_updates_state c key iv chunks
    obtain ⟨o, e2, hu2, hs2⟩ := encrypt_update_step c _ _ _ e1 out chunk hs
    obtain ⟨f, e3, hf, hof, _⟩ := encState_final c _ _ _ e1 out hs
    rw [hit] at hs hs2 hof
    obtain ⟨l1, _⟩ := cbcLoop_length (encStep c (key.take 32)) (encStep_ok c _)
      (chunks.flatten.length / 16) iv chunks.flatten hiv16 (by omega)
    obtain ⟨l2, _⟩ := cbcLoop_length (encStep c (key.take 32)) (encStep_ok c _)
      ((chunks.flatten ++ chunk).length / 16) iv (chunks.flatten ++ chunk) hiv16 (by omega)
    obtain ⟨l3, _⟩ := cbcLoop_length (encStep c (key.take 32)) (encStep_ok c _)
      (chunks.flatten.length / 16 + 1) iv (pad chunks.flatten) hiv16 (by rw [pad_length])
    have k1 := hs.2.2
    have k2 := hs2.2.2
    simp only [CRYPTO_cbc128_encrypt] at k1 k2 hof
    rw [k1] at l1
    rw [k2] at l2
    rw [← hof] at l3
    dsimp only at l1 l2
    simp only [List.length_append] at l2 l3
    exact ⟨_, out, e1, o, e2, rfl, hu, hu2, by omega, f, e3, hf, by omega⟩
  · obtain ⟨out, d1, hu, hs⟩ := decrypt_updates_state c key iv chunks hiv16
    rw [hit] at hs
    obtain ⟨o, d2, hu2, hs2⟩ := decrypt_update_step c _ _ hiv16 _ d1 out chunk hs
    obtain ⟨l1, _⟩ := decState_out_length c _ _ _ d1 out hiv16 hs
    obtain ⟨l2, _⟩ := decState_out_length c _ _ _ d2 _ hiv16 hs2
    simp only [List.length_append] at l2
    refine ⟨_, out, d1, o, d2, rfl, hu, hu2, by omega, ?_⟩
    intro f d3 hfin
    have hnw : ¬ (d1.buf ≠ [] ∨ d1.final_used = false) := by
      intro hw
      rw [decrypt_final_wrong_length d1 hw] at hfin
      cases hfin
    have hb0 : d1.buf = [] := by
      by_contra hne; exact hnw (Or.inl hne)
    have hused : d1.final_used = true := by
      cases hfu : d1.final_used
      · exact absurd (Or.inr hfu) hnw
      · rfl
    have hpos := (decState_out_length c _ _ _ d1 out hiv16 hs).2.mp hused
    obtain ⟨_, _, _, hl, _, _⟩ := decState_final_eq c _ iv _ d1 out hiv16 hs hpos.1 hpos.2
    obtain ⟨a, b⟩ := decrypt_final_spec d1 hb0 hused hl
    by_cases hv : validPadding d1.final
    · rw [a hv] at hfin
      cases hfin
      simp only [List.length_take]; omega
    · rw [b hv] at hfin
      cases hfin

/-- The bound for a full read of 1024 bytes after 1030 bytes were fed. -/
theorem output_buffer_bound_witness :
    sample_iv.length = BLOCK_SIZE ∧ 1 ≤ (List.replicate 1024 0).length ∧
      (List.replicate 1024 0).length ≤ 1024 ∧
      ∃ d0 out d1 o d2, Decrypt.Decrypt main_key sample_iv = .ok d0 ∧
        updates (Decrypt.update xorCipher) d0 [List.replicate 1024 1, List.replicate 6 2]
          = .ok (out, d1) ∧
        Decrypt.update xorCipher d1 (List.replicate 1024 0) = .ok (o, d2) ∧
        o.length ≤ 1040 := by
  refine ⟨by decide, by rw [List.length_replicate]; omega,
    by rw [List.length_replicate], ?_⟩
  obtain ⟨_, ⟨d0, out, d1, o, d2, h0, h1, h2, h3, _⟩, _⟩ := output_buffer_bound xorCipher
    main_key sample_iv [List.replicate 1024 1, List.replicate 6 2] (List.replicate 1024 0)
    (by decide) (by rw [List.length_replicate]; omega) (by rw [List.length_replicate])
  exact ⟨d0, out, d1, o, d2, h0, h1, h2, by rw [List.length_replicate] at h3; omega⟩


/-- C6, as stated, fails: a payload of 17 bytes is not a multiple of 16, yet
`Decrypt::update` decrypts its first block and returns 16 bytes, `test_decrypt` passes
them to `fout.write`, and only then does `final` abort. -/
theorem malformed_length_reaches_update :
    (List.range 17).length % 16 ≠ 0 ∧
      (∃ d0, Decrypt.Decrypt main_key sample_iv = .ok d0 ∧
        Except.map Prod.fst (Decrypt.update xorCipher d0 (List.range 17)) = .ok
          [161, 161, 161, 161, 161, 161, 161, 161, 161, 161, 161, 161, 161, 161, 161, 161]) ∧
      test_decrypt xorCipher main_key [] (sample_iv ++ List.range 17)
        = some (.aborted .EVP_R_WRONG_FINAL_BLOCK_LENGTH
          [161, 161, 161, 161, 161, 161, 161, 161, 161, 161, 161, 161, 161, 161, 161, 161]) :=
  ⟨by decide, ⟨_, rfl, rfl⟩, by decide⟩

/-- C6, amended.  `test_decrypt` has no check up front.  When the payload after the
16-byte IV is not a positive multiple of 16 bytes long, the run aborts in `final` with the
library's wrong final block length, which comes before the padding check; by then the
`update` calls have produced, and the driver has written, the decryption of every whole
block of the payload, `16 * (T / 16)` bytes. -/
theorem malformed_length_aborts_in_final (c : BlockCipher) (key stack iv payload : List Byte)
    (hiv : iv.length = BLOCK_SIZE)
    (hbad : ¬ (0 < payload.length ∧ payload.length % 16 = 0)) :
    ∃ out, test_decrypt c key stack (iv ++ payload)
        = some (.aborted .EVP_R_WRONG_FINAL_BLOCK_LENGTH out) ∧
      out = (CRYPTO_cbc128_decrypt c (key.take 32) (payload.length / 16) iv payload).1 ∧
      out.length = 16 * (payload.length / 16) := by
  have hiv16 : iv.length = 16 := hiv
  obtain ⟨out, ctx1, hs, ht⟩ := test_decrypt_eq c key stack iv payload hiv16
  obtain ⟨lp, _⟩ := cbcLoop_length (decStep c (key.take 32)) (decStep_ok c _)
    (payload.length / 16) iv payload hiv16 (by omega)
  obtain ⟨_, _, _, h4⟩ := hs
  rw [if_neg hbad] at h4
  rw [decrypt_final_wrong_length ctx1 (Or.inr h4.1)] at ht
  refine ⟨out, ht, h4.2, ?_⟩
  rw [h4.2]; exact lp

/-- The amended C6 on a payload of 17 bytes. -/
theorem malformed_length_aborts_in_final_witness :
    sample_iv.length = BLOCK_SIZE ∧
      ¬ (0 < (List.range 17).length ∧ (List.range 17).length % 16 = 0) ∧
      ∃ out, test_decrypt xorCipher main_key [] (sample_iv ++ List.range 17)
          = some (.aborted .EVP_R_WRONG_FINAL_BLOCK_LENGTH out) ∧ out.length = 16 := by
  refine ⟨by decide, by decide, ?_⟩
  obtain ⟨out, h1, _, h3⟩ := malformed_length_aborts_in_final xorCipher main_key [] sample_iv
    (List.range 17) (by decide) (by decide)
  exact ⟨out, h1, by simpa using h3⟩

/-- C8, as stated, fails: with a key buffer of 33 bytes and an IV buffer of 17 bytes the
constructor succeeds and creates a cipher state from the first 32 and 16 bytes. -/
theorem constructor_accepts_wrong_sizes :
    (List.replicate 33 5).length ≠ KEY_SIZE ∧ (List.replicate 17 6).length ≠ BLOCK_SIZE ∧
      Encrypt.Encrypt (List.replicate 33 5) (List.replicate 17 6)
        = .ok { key := List.replicate 32 5, iv := List.replicate 16 6, buf := [],
                final := List.replicate 16 0, final_used := false } ∧
      Decrypt.Decrypt (List.replicate 33 5) (List.replicate 17 6)
        = .ok { key := List.replicate 32 5, iv := List.replicate 16 6, buf := [],
                final := List.replicate 16 0, final_used := false } :=
  ⟨by decide, by decide, rfl, rfl⟩

/-- C8, amended.  The constructors check no sizes: they take bare pointers, and for a key
buffer of at least 32 bytes and an IV buffer of at least 16 they always yield a context,
made of the first 32 bytes of the one and the first 16 of the other, with nothing
carried.  When the input file of `test_decrypt` has fewer than 16 bytes, the context is
still constructed, the read loop is skipped, and the run aborts in `final` with a wrong
final block length, nothing having been written. -/
theorem construction_checks_no_sizes (c : BlockCipher) (key iv stack file : List Byte)
    (hk : KEY_SIZE ≤ key.length) (hiv : BLOCK_SIZE ≤ iv.length) :
    Encrypt.Encrypt key iv
        = .ok { key := key.take KEY_SIZE, iv := iv.take BLOCK_SIZE, buf := [],
                final := List.replicate 16 0, final_used := false } ∧
      Decrypt.Decrypt key iv
        = .ok { key := key.take KEY_SIZE, iv := iv.take BLOCK_SIZE, buf := [],
                final := List.replicate 16 0, final_used := false } ∧
      (key.take KEY_SIZE).length = KEY_SIZE ∧ (iv.take BLOCK_SIZE).length = BLOCK_SIZE ∧
      (file.length < BLOCK_SIZE →
        test_decrypt c key stack file
          = some (.aborted .EVP_R_WRONG_FINAL_BLOCK_LENGTH [])) := by
  refine ⟨rfl, rfl, by rw [List.length_take]; omega, by rw [List.length_take]; omega, ?_⟩
  intro hshort
  have hrd : ({ rest := file, failed := false } : Ifstream).read BLOCK_SIZE
      = (file, { rest := [], failed := true }) := by
    have h1 : ¬ BLOCK_SIZE ≤ file.length := by omega
    simp only [Ifstream.read, Bool.false_eq_true, if_false, h1]
  simp only [test_decrypt, hrd, Decrypt.Decrypt, EVP_CipherInit_ex, readLoop, if_true]
  rfl

/-- The amended C8 with a key buffer of 33 bytes, an IV buffer of 17 and a file of three
bytes. -/
theorem construction_checks_no_sizes_witness :
    KEY_SIZE ≤ (List.replicate 33 5).length ∧ BLOCK_SIZE ≤ (List.replicate 17 6).length ∧
      Encrypt.Encrypt (List.replicate 33 5) (List.replicate 17 6)
        = .ok { key := (List.replicate 33 5).take KEY_SIZE,
                iv := (List.replicate 17 6).take BLOCK_SIZE, buf := [],
                final := List.replicate 16 0, final_used := false } ∧
      test_decrypt xorCipher (List.replicate 33 5) (List.replicate 16 9) [1, 2, 3]
        = some (.aborted .EVP_R_WRONG_FINAL_BLOCK_LENGTH []) :=
  have h := construction_checks_no_sizes xorCipher (List.replicate 33 5) (List.replicate 17 6)
    (List.replicate 16 9) [1, 2, 3] (by decide) (by decide)
  ⟨by decide, by decide, h.1, h.2.2.2.2 (by decide)⟩

end Aes
